import Mathlib

/-!
Verification of the two maintenance scripts of this repository,
src/scripts/sync_requirements.py and src/scripts/sync_version.py.

The scripts operate on in-memory file contents (Python str); the embedding
models text as `List Char` and file contents as values passed to the pure
functions below.  File reads/writes sit outside the model: each synchronizer
returns the final content of its target file together with its boolean
return value ("changed").

Modelling boundaries, stated once here:
* Python regular expressions are embedded by direct translation of the three
  concrete patterns used in the scripts (no general regex engine).  Each
  pattern admits a deterministic staged matcher; the staging, including the
  one backtracking point (the greedy space-then-newline element of the array
  pattern), reproduces CPython re semantics, which was cross-checked
  exhaustively on randomized inputs.
* The character class for a space and the line-break set are modelled by
  their ASCII fragment (plus the extra break characters of str.splitlines);
  astral unicode whitespace is outside the model.
* re.sub replacement-template escape processing is embedded (parseTemplate
  and the X-suffixed program functions below, cross-checked against CPython
  on randomized templates): the replacement string is parsed once before the
  scan unless it is backslash-free, group references expand per match, and a
  bad escape or invalid group reference raises, modelled as none.  subAllC
  and subAllB are the literal-insertion readings, proved below to coincide
  with the faithful ones exactly when the interpolated requirement lines and
  version value are backslash-free.  One boundary: a g-bracketed group name
  is accepted only as a plain digit string; the deprecated spellings CPython
  still tolerates with a warning (a sign, a space or an underscore inside
  the name) are modelled as the errors they are documented to become.
-/

namespace LangoSync

/-- Python whitespace class for the purposes of str.strip and the re class
of a space character: space, tab, newline, carriage return, vertical tab,
form feed (ASCII fragment). -/
def pyWs (c : Char) : Bool :=
  c = ' ' || c = '\t' || c = '\n' || c = '\x0d' || c = '\x0b' || c = '\x0c'

/-- Line boundary characters of str.splitlines (the CR LF pair is handled
separately by the splitter). -/
def pyLineBreak (c : Char) : Bool :=
  c = '\n' || c = '\x0d' || c = '\x0b' || c = '\x0c' ||
  c = '\x1c' || c = '\x1d' || c = '\x1e' || c = '\x85' ||
  c = '\u2028' || c = '\u2029'

/-- str.strip with no arguments: remove whitespace from both ends. -/
def pyStrip (l : List Char) : List Char :=
  ((l.dropWhile pyWs).reverse.dropWhile pyWs).reverse

/-- Worker for str.splitlines: acc holds the current line reversed. -/
def pySplitGo : List Char → List Char → List (List Char)
  | acc, [] => if acc = [] then [] else [acc.reverse]
  | acc, '\x0d' :: '\n' :: r => acc.reverse :: pySplitGo [] r
  | acc, c :: r =>
    if pyLineBreak c then acc.reverse :: pySplitGo [] r
    else pySplitGo (c :: acc) r

/-- str.splitlines. -/
def pySplitlines (s : List Char) : List (List Char) :=
  pySplitGo [] s

/-- The loop body of parse_requirements (sync_requirements.py lines 14-23):
strip each line, skip empty lines, comment lines and flag lines, keep the
rest in order. -/
def parseLinesLoop : List (List Char) → List (List Char)
  | [] => []
  | l :: ls =>
    let s := pyStrip l
    if s = [] then parseLinesLoop ls
    else if s.head? = some '#' then parseLinesLoop ls
    else if s.head? = some '-' then parseLinesLoop ls
    else s :: parseLinesLoop ls

/-- parse_requirements (sync_requirements.py lines 9-24).  A missing file is
modelled by `none` and yields the empty list. -/
def parse_requirements : Option (List Char) → List (List Char)
  | none => []
  | some txt => parseLinesLoop (pySplitlines txt)

/-- One formatted entry of format_dependencies: indent spaces, a quoted
dependency, a trailing comma. -/
def formatDep (indent : Nat) (d : List Char) : List Char :=
  List.replicate indent ' ' ++ '"' :: (d ++ ['"', ','])

/-- format_dependencies (sync_requirements.py lines 27-34): empty list gives
the empty string, otherwise the newline-join of the formatted entries.
The scripts always call it with the default indent 4. -/
def format_dependencies (deps : List (List Char)) (indent : Nat) : List Char :=
  if deps = [] then [] else List.intercalate ['\n'] (deps.map (formatDep indent))

/-! ### The array pattern

sync_to_pyproject rewrites, for a label (the literal "dependencies" or
"test"), every non-overlapping occurrence of the DOTALL pattern

  (label ws* = ws* open-bracket) ws* newline  lazy-body  (newline ws* close-bracket)

replacing it with: group 1, a newline, the formatted entries, a newline and
a close bracket.  The staged matcher below reproduces the engine exactly:
the literal and the two ws-then-literal elements are deterministic (the
expected character is never whitespace, so the greedy ws run cannot give
characters back); the ws*-newline element backtracks from the last newline
of the ws run downwards; the lazy body stops at the first
newline-ws*-close-bracket occurrence. -/

/-- Consume an exact literal, returning the remainder. -/
def eatLit : List Char → List Char → Option (List Char)
  | [], s => some s
  | _ :: _, [] => none
  | c :: l, x :: s => if x = c then eatLit l s else none

/-- Consume a greedy whitespace run followed by the required character c:
returns the run and the remainder after c.  Deterministic, since c is never
a whitespace character at the call sites. -/
def eatWsThen (c : Char) (s : List Char) : Option (List Char × List Char) :=
  let w := s.takeWhile pyWs
  match s.dropWhile pyWs with
  | x :: r => if x = c then some (w, r) else none
  | [] => none

/-- The opening group: label, ws run, =, ws run, [.  Returns the exact text
of group 1 and the remainder. -/
def openerParse (label : List Char) (s : List Char) : Option (List Char × List Char) :=
  match eatLit label s with
  | none => none
  | some r1 =>
    match eatWsThen '=' r1 with
    | none => none
    | some (w1, r2) =>
      match eatWsThen '[' r2 with
      | none => none
      | some (w2, r3) => some (label ++ w1 ++ '=' :: w2 ++ ['['], r3)

/-- The lazy body and closing group: find the first position with a newline,
then a greedy whitespace run, then a close bracket.  Returns the body, the
whitespace of the closer and the remainder after the bracket. -/
def findClose : List Char → Option (List Char × List Char × List Char)
  | [] => none
  | c :: cs =>
    if c = '\n' then
      match cs.dropWhile pyWs with
      | q :: r =>
        if q = ']' then some ([], cs.takeWhile pyWs, r)
        else (findClose cs).map (fun t => (c :: t.1, t.2.1, t.2.2))
      | [] => (findClose cs).map (fun t => (c :: t.1, t.2.1, t.2.2))
    else (findClose cs).map (fun t => (c :: t.1, t.2.1, t.2.2))

/-- Split a list at its last newline: l = a ++ newline :: b with b
newline-free. -/
def lastSplit : List Char → Option (List Char × List Char)
  | [] => none
  | c :: cs =>
    match lastSplit cs with
    | some (a, b) => some (c :: a, b)
    | none => if c = '\n' then some ([], cs) else none

/-- The backtracking loop of the ws*-newline element, walking the whitespace
run from its right end: the first argument is the portion of the run not yet
examined, reversed; giveBack is the already examined portion (in order),
which the continuation gets back.  The first newline found this way is the
last newline of the run, the greedy engine's first candidate; on failure of
the lazy-body search the engine gives it back and retries from the previous
newline.  Returns (consumed ws incl. its newline, body, closer ws,
remainder). -/
def candLoopR : List Char → List Char → List Char →
    Option (List Char × List Char × List Char × List Char)
  | [], _, _ => none
  | c :: rr, giveBack, rest =>
    if c = '\n' then
      match findClose (giveBack ++ rest) with
      | some (body, cw, r) => some (rr.reverse ++ ['\n'], body, cw, r)
      | none => candLoopR rr ('\n' :: giveBack) rest
    else candLoopR rr (c :: giveBack) rest

/-- Entry point of the backtracking loop: candidates are the newlines of the
whitespace run, tried from the last one downwards. -/
def candLoop (run rest : List Char) :
    Option (List Char × List Char × List Char × List Char) :=
  candLoopR run.reverse [] rest

/-- A successful array-pattern match: s = g1 ++ wsnl ++ body ++
newline :: cw ++ close-bracket :: rest. -/
structure CMatch where
  g1 : List Char
  wsnl : List Char
  body : List Char
  cw : List Char
  rest : List Char
  deriving DecidableEq

/-- Whole-pattern attempt at the current position. -/
def tryMatchC (label : List Char) (s : List Char) : Option CMatch :=
  match openerParse label s with
  | none => none
  | some (g1, r3) =>
    let run := r3.takeWhile pyWs
    match candLoop run (r3.dropWhile pyWs) with
    | none => none
    | some (w, body, cw, r) => some ⟨g1, w, body, cw, r⟩

/-- The replacement template of sync_to_pyproject: group 1, newline, the
formatted entries, newline, close bracket. -/
def replC (g1 D : List Char) : List Char :=
  g1 ++ '\n' :: (D ++ ['\n', ']'])

/-- The re.sub scan for the array pattern: try a match at every position,
left to right; on success emit the replacement and resume after the match.
Fuel is the number of scan steps; every step consumes at least one input
character, so the input length is enough fuel. -/
def subCGo (label D : List Char) : Nat → List Char → List Char
  | 0, s => s
  | _ + 1, [] => []
  | fuel + 1, c :: cs =>
    match tryMatchC label (c :: cs) with
    | some m => replC m.g1 D ++ subCGo label D fuel m.rest
    | none => c :: subCGo label D fuel cs

/-- re.sub of the array pattern over a whole document. -/
def subAllC (label D : List Char) (s : List Char) : List Char :=
  subCGo label D s.length s

/-- The label of the main dependencies array. -/
def labelDeps : List Char := "dependencies".data

/-- The label of the test/dev dependencies array. -/
def labelTest : List Char := "test".data

/-- sync_to_pyproject (sync_requirements.py lines 37-73) on file contents:
returns the final content of the configuration document and the boolean
return value.  The file is written if and only if the boolean is true. -/
def sync_to_pyproject (content : List Char) (req reqDev : Option (List Char)) :
    List Char × Bool :=
  let deps := parse_requirements req
  let devDeps := parse_requirements reqDev
  let c1 := if deps = [] then content else subAllC labelDeps (format_dependencies deps 4) content
  let c2 := if devDeps = [] then c1 else subAllC labelTest (format_dependencies devDeps 4) c1
  (c2, decide (c2 ≠ content))

/-! ### The version patterns -/

/-- Attempt of the version-extraction pattern of get_pyproject_version at a
line start: the literal word version, a ws run, =, a ws run, a double quote,
a non-empty run of non-quote characters (group 1), a closing quote.
Greedy runs are deterministic here: the character after each run is never a
member of the run class. -/
def tryMatchA (s : List Char) : Option (List Char) :=
  match eatLit "version".data s with
  | none => none
  | some r1 =>
    match eatWsThen '=' r1 with
    | none => none
    | some (_, r2) =>
      match eatWsThen '"' r2 with
      | none => none
      | some (_, r3) =>
        let v := r3.takeWhile (fun c => c ≠ '"')
        match r3.dropWhile (fun c => c ≠ '"') with
        | [] => none
        | q :: _ => if q = '"' then (if v = [] then none else some v) else none

/-- re.search with a MULTILINE line-start anchor: try the pattern at
position 0 and after every newline, leftmost match first. -/
def searchA : Bool → List Char → Option (List Char)
  | _, [] => none
  | atLS, c :: cs =>
    match (if atLS then tryMatchA (c :: cs) else none) with
    | some v => some v
    | none => searchA (c = '\n') cs

/-- get_pyproject_version (sync_version.py lines 9-13). -/
def get_pyproject_version (content : List Char) : Option (List Char) :=
  searchA true content

/-- Attempt of the version-assignment pattern of sync_version at a line
start: the literal dunder version name, ws run, =, ws run, quote, non-empty
non-quote run, quote, then everything up to the end of the line.  Returns
the remainder after the match (empty, or starting with the newline the
line-end anchor stopped at). -/
def tryMatchB (s : List Char) : Option (List Char) :=
  match eatLit "__version__".data s with
  | none => none
  | some r1 =>
    match eatWsThen '=' r1 with
    | none => none
    | some (_, r2) =>
      match eatWsThen '"' r2 with
      | none => none
      | some (_, r3) =>
        let v := r3.takeWhile (fun c => c ≠ '"')
        match r3.dropWhile (fun c => c ≠ '"') with
        | [] => none
        | q :: r4 =>
          if q = '"' then (if v = [] then none else some (r4.dropWhile (fun c => c ≠ '\n')))
          else none

/-- The canonical replacement line written by sync_version. -/
def canonLine (v : List Char) : List Char :=
  "__version__ = \"".data ++ v ++ "\"  # modify in pyproject.toml".data

/-- The re.sub scan for the version-assignment pattern, with the MULTILINE
line-start anchor tracked as a flag.  A match never ends in front of a
non-newline character, so the resume position is never a line start. -/
def subBGo (v : List Char) : Nat → Bool → List Char → List Char
  | 0, _, s => s
  | _ + 1, _, [] => []
  | fuel + 1, atLS, c :: cs =>
    match (if atLS then tryMatchB (c :: cs) else none) with
    | some rest => canonLine v ++ subBGo v fuel false rest
    | none => c :: subBGo v fuel (c = '\n') cs

/-- re.sub of the version-assignment pattern over a whole document. -/
def subAllB (v : List Char) (s : List Char) : List Char :=
  subBGo v s.length true s

/-- Result of one run of sync_version: whether the version was found (when
false, the error line was printed and the initializer file was never read or
written), the content of the initializer file after the run, and the boolean
return value. -/
structure VSyncResult where
  found : Bool
  fileAfter : List Char
  changed : Bool
deriving DecidableEq, Repr

/-- sync_version (sync_version.py lines 16-37) on file contents. -/
def sync_version (pyproject init : List Char) : VSyncResult :=
  match get_pyproject_version pyproject with
  | none => ⟨false, init, false⟩
  | some v =>
    let c := subAllB v init
    ⟨true, if c = init then init else c, decide (c ≠ init)⟩

/-- main of sync_version.py: exit code and final initializer content, given
whether the two files exist and their contents.  Note that the version-not-
found branch of sync_version only makes the function return False, which
main treats as "already in sync" and exit code 0. -/
def syncVersionMain (pyExists initExists : Bool) (pyproject init : List Char) :
    Nat × List Char :=
  if !pyExists then (1, init)
  else if !initExists then (1, init)
  else (0, (sync_version pyproject init).fileAfter)

inductive LineProbe where
  | fires : LineProbe
  | failsLocal : LineProbe
  | risky : LineProbe
deriving DecidableEq

/-- Classify one physical line (a newline-free string). -/
def lineProbe (l : List Char) : LineProbe :=
  match eatLit "__version__".data l with
  | none => .failsLocal
  | some r1 =>
    match eatWsThen '=' r1 with
    | none => if r1.dropWhile pyWs = [] then .risky else .failsLocal
    | some (_, r2) =>
      match eatWsThen '"' r2 with
      | none => if r2.dropWhile pyWs = [] then .risky else .failsLocal
      | some (_, r3) =>
        match r3.dropWhile (fun c => c ≠ '"') with
        | [] => .risky
        | _ :: _ => if r3.takeWhile (fun c => c ≠ '"') = [] then .failsLocal else .fires

/-- Newline join of a list of lines (str.join with a newline separator,
which is how a multi-line document decomposes into physical lines). -/
def joinLines : List (List Char) → List Char
  | [] => []
  | [l] => l
  | l :: ls => l ++ '\n' :: joinLines ls

/-- Leftmost match of the array pattern: the prefix of unmatched characters
and the match found after it. -/
def findM (label : List Char) : List Char → Option (List Char × CMatch)
  | [] => none
  | c :: cs =>
    match tryMatchC label (c :: cs) with
    | some m => some ([], m)
    | none => (findM label cs).map (fun p => (c :: p.1, p.2))

/-- The exact text of a match inside the document. -/
def matchedText (m : CMatch) : List Char :=
  m.g1 ++ m.wsnl ++ m.body ++ '\n' :: m.cw ++ [']']

/-- The replacement text of a match. -/
def replText (D : List Char) (m : CMatch) : List Char :=
  replC m.g1 D

/-- Interleave unmatched segments with per-match text: seg0, f m1, seg1, ...,
f mk, segk. -/
def altJoin (f : CMatch → List Char) : List (List Char) → List CMatch → List Char
  | [s], [] => s
  | s :: ss, m :: ms => s ++ (f m ++ altJoin f ss ms)
  | _, _ => []

/-- The formatted-entries string is well shaped: it starts with indent spaces
and a quote, and after every newline come indent spaces and a quote. -/
def GoodD (D : List Char) : Prop :=
  (∃ n c2, D = List.replicate n ' ' ++ '"' :: c2) ∧
  (∀ a b, D = a ++ '\n' :: b → ∃ bw bq b2, b = bw ++ bq :: b2 ∧
    (∀ x ∈ bw, pyWs x = true) ∧ pyWs bq = false ∧ bq ≠ ']')

/-- Documents built from scan-failing positions and replacement blocks. -/
inductive ScanSelf (label D : List Char) : List Char → Prop where
  | nil : ScanSelf label D []
  | skip (c : Char) (cs : List Char) : tryMatchC label (c :: cs) = none →
      ScanSelf label D cs → ScanSelf label D (c :: cs)
  | fire (w1 w2 K : List Char) : (∀ x ∈ w1, pyWs x = true) →
      (∀ x ∈ w2, pyWs x = true) → ScanSelf label D K →
      ScanSelf label D (replC (label ++ w1 ++ '=' :: w2 ++ ['[']) D ++ K)


/-- Every nonempty suffix of u fails the scan attempt, whatever text follows u. -/
def suffixDead (label u : List Char) : Prop :=
  ∀ a b, u = a ++ b → b ≠ [] → ∀ Y, tryMatchC label (b ++ Y) = none

/-- A string ending exactly at a closer: optional text, a newline, closer
whitespace and the close bracket -- or, mid-closer, just whitespace and the
bracket. -/
def EndsCl (Q : List Char) : Prop :=
  (∃ q0 cw, (∀ x ∈ cw, pyWs x = true) ∧ Q = q0 ++ '\n' :: (cw ++ [']'])) ∨
  (∃ cw, (∀ x ∈ cw, pyWs x = true) ∧ Q = cw ++ [']'])

/-- The content transformation of one sync_to_pyproject run. -/
def syncStep (P Q : List (List Char)) (x : List Char) : List Char :=
  let c1 := if P = [] then x else subAllC labelDeps (format_dependencies P 4) x
  if Q = [] then c1 else subAllC labelTest (format_dependencies Q 4) c1

/-! ### re.sub replacement templates

re.sub does not always insert the replacement string literally.  When the
replacement string contains no backslash, CPython takes a literal fast path;
otherwise the string is parsed once by re (parse_template) before the scan:
backslash escapes become characters, a backslash followed by digits or
a g-bracketed digit string becomes a group reference expanded per match, and
a malformed escape or an out-of-range group raises re.error, so the script
dies before producing any output.  The definitions below embed that
processing; subAllC and subAllB above are the literal-insertion readings,
exact whenever the interpolated text is backslash-free. -/

/-- One element of a parsed replacement template: a literal character or a
reference to a numbered group of the pattern. -/
inductive TItem where
  | lit : Char → TItem
  | group : Nat → TItem
deriving DecidableEq

/-- Octal digit test (OCTDIGITS). -/
def isOct (c : Char) : Bool := decide ('0'.toNat ≤ c.toNat) && decide (c.toNat ≤ '7'.toNat)

/-- Numeric value of one digit character. -/
def digitVal (c : Char) : Nat := c.toNat - '0'.toNat

/-- Numeric value of a digit string (int() applied to a group name). -/
def digitsToNat (l : List Char) : Nat := l.foldl (fun a c => a * 10 + digitVal c) 0

/-- One escape sequence of a replacement template (the text after a
backslash): the items it produces and the remaining input, or none on a
raised error (bad escape, missing or malformed group name, group index
beyond G, octal escape beyond 0o377, or a trailing lone backslash).  Both
patterns of the scripts define only numbered groups, so a g-bracketed name
that is not a plain digit string is an unknown group name, hence also an
error. -/
def parseEsc (G : Nat) : List Char → Option (List TItem × List Char)
  | [] => none
  | c1 :: r1 =>
    if c1 = 'g' then
      match r1 with
      | [] => none
      | c2 :: r2 =>
        if c2 = '<' then
          match r2.dropWhile (fun x => x ≠ '>') with
          | [] => none
          | _ :: r3 =>
            let name := r2.takeWhile (fun x => x ≠ '>')
            if name = [] then none
            else if name.all Char.isDigit then
              if digitsToNat name ≤ G then some ([TItem.group (digitsToNat name)], r3)
              else none
            else none
        else none
    else if c1 = '0' then
      match r1 with
      | [] => some ([TItem.lit (Char.ofNat 0)], [])
      | d1 :: r2 =>
        if isOct d1 then
          match r2 with
          | [] => some ([TItem.lit (Char.ofNat (digitVal d1))], [])
          | d2 :: r3 =>
            if isOct d2 then
              some ([TItem.lit (Char.ofNat (digitVal d1 * 8 + digitVal d2))], r3)
            else some ([TItem.lit (Char.ofNat (digitVal d1))], r2)
        else some ([TItem.lit (Char.ofNat 0)], r1)
    else if c1.isDigit then
      match r1 with
      | [] => if digitVal c1 ≤ G then some ([TItem.group (digitVal c1)], []) else none
      | c2 :: r2 =>
        if c2.isDigit then
          match r2 with
          | c3 :: r3 =>
            if isOct c1 && (isOct c2 && isOct c3) then
              if digitVal c1 * 64 + digitVal c2 * 8 + digitVal c3 ≤ 255 then
                some ([TItem.lit
                  (Char.ofNat (digitVal c1 * 64 + digitVal c2 * 8 + digitVal c3))], r3)
              else none
            else
              if digitVal c1 * 10 + digitVal c2 ≤ G then
                some ([TItem.group (digitVal c1 * 10 + digitVal c2)], r2)
              else none
          | [] =>
            if digitVal c1 * 10 + digitVal c2 ≤ G then
              some ([TItem.group (digitVal c1 * 10 + digitVal c2)], [])
            else none
        else
          if digitVal c1 ≤ G then some ([TItem.group (digitVal c1)], r1) else none
    else if c1 = 'a' then some ([TItem.lit '\x07'], r1)
    else if c1 = 'b' then some ([TItem.lit '\x08'], r1)
    else if c1 = 'f' then some ([TItem.lit '\x0c'], r1)
    else if c1 = 'n' then some ([TItem.lit '\n'], r1)
    else if c1 = 'r' then some ([TItem.lit '\x0d'], r1)
    else if c1 = 't' then some ([TItem.lit '\t'], r1)
    else if c1 = 'v' then some ([TItem.lit '\x0b'], r1)
    else if c1 = '\\' then some ([TItem.lit '\\'], r1)
    else if c1.isAlpha then none
    else some ([TItem.lit '\\', TItem.lit c1], r1)

/-- parse_template of the re module on a replacement string, for a pattern
with G numbered groups; none models a raised error.  Fuel decreases once per
parsed item; every item consumes at least one character, so the string
length is enough fuel. -/
def parseTemplate (G : Nat) : Nat → List Char → Option (List TItem)
  | _, [] => some []
  | 0, _ :: _ => none
  | fuel + 1, c :: rest =>
    if c = '\\' then
      match parseEsc G rest with
      | none => none
      | some (its, r2) => (parseTemplate G fuel r2).map (fun ts => its ++ ts)
    else (parseTemplate G fuel rest).map (fun ts => TItem.lit c :: ts)

/-- Expand a parsed template against one match, g giving the text of each
group.  Every group of both patterns always participates in a match, so
expansion never fails. -/
def expandT (g : Nat → List Char) : List TItem → List Char
  | [] => []
  | TItem.lit c :: ts => c :: expandT g ts
  | TItem.group i :: ts => g i ++ expandT g ts

/-- The groups of an array-pattern match: 0 the whole matched text, 1 the
opener, 2 the lazy body, 3 the closer. -/
def groupsC (m : CMatch) : Nat → List Char := fun i =>
  if i = 0 then matchedText m
  else if i = 1 then m.g1
  else if i = 2 then m.body
  else if i = 3 then '\n' :: (m.cw ++ [']'])
  else []

/-- The array-pattern scan with a parsed replacement template: each match is
replaced by the template expanded against it. -/
def subCGoX (label : List Char) (items : List TItem) : Nat → List Char → List Char
  | 0, s => s
  | _ + 1, [] => []
  | fuel + 1, c :: cs =>
    match tryMatchC label (c :: cs) with
    | some m => expandT (groupsC m) items ++ subCGoX label items fuel m.rest
    | none => c :: subCGoX label items fuel cs

/-- The array-pattern scan with an arbitrary per-match replacement function:
the literal scan and the template scan are both instances of it. -/
def subCGoF (label : List Char) (f : CMatch → List Char) : Nat → List Char → List Char
  | 0, s => s
  | _ + 1, [] => []
  | fuel + 1, c :: cs =>
    match tryMatchC label (c :: cs) with
    | some m => f m ++ subCGoF label f fuel m.rest
    | none => c :: subCGoF label f fuel cs

/-- The replacement string built by sync_to_pyproject: a backslash-one group
reference, a newline, the formatted entries, a newline and a close bracket. -/
def tmplC (D : List Char) : List Char := '\\' :: '1' :: '\n' :: (D ++ ['\n', ']'])

/-- re.sub of the array pattern with faithful template processing.  The
replacement string always starts with a backslash, so it is always parsed;
none models the raised re.error. -/
def subAllCX (label D s : List Char) : Option (List Char) :=
  (parseTemplate 3 (tmplC D).length (tmplC D)).map
    (fun items => subCGoX label items s.length s)

/-- The version-pattern scan with a parsed replacement template: the pattern
has no capturing groups, so only group 0 (the whole matched text) exists. -/
def subBGoX (items : List TItem) : Nat → Bool → List Char → List Char
  | 0, _, s => s
  | _ + 1, _, [] => []
  | fuel + 1, atLS, c :: cs =>
    match (if atLS then tryMatchB (c :: cs) else none) with
    | some rest =>
      expandT
        (fun i => if i = 0 then (c :: cs).take ((c :: cs).length - rest.length) else [])
        items ++ subBGoX items fuel false rest
    | none => c :: subBGoX items fuel (c = '\n') cs

/-- re.sub of the version pattern with faithful template processing: a
replacement string without backslashes is inserted literally (the CPython
fast path); otherwise it is parsed against a pattern with zero groups and
expanded per match, and none models the raised re.error. -/
def subAllBX (v : List Char) (s : List Char) : Option (List Char) :=
  if '\\' ∈ canonLine v then
    (parseTemplate 0 (canonLine v).length (canonLine v)).map
      (fun items => subBGoX items s.length true s)
  else some (subAllB v s)

/-- sync_to_pyproject with faithful template processing; none models the
script dying on a raised re.error, before writing anything. -/
def sync_to_pyprojectX (content : List Char) (req reqDev : Option (List Char)) :
    Option (List Char × Bool) :=
  match (if parse_requirements req = [] then some content
      else subAllCX labelDeps (format_dependencies (parse_requirements req) 4) content) with
  | none => none
  | some c1 =>
    match (if parse_requirements reqDev = [] then some c1
        else subAllCX labelTest (format_dependencies (parse_requirements reqDev) 4) c1) with
    | none => none
    | some c2 => some (c2, decide (c2 ≠ content))

/-- sync_version with faithful template processing; none models the script
dying on a raised re.error, before writing anything. -/
def sync_versionX (pyproject init : List Char) : Option VSyncResult :=
  match get_pyproject_version pyproject with
  | none => some ⟨false, init, false⟩
  | some v =>
    match subAllBX v init with
    | none => none
    | some c => some ⟨true, if c = init then init else c, decide (c ≠ init)⟩

/-! ## Basic lemmas about the staged matchers -/

theorem eatLit_some {lit s r : List Char} (h : eatLit lit s = some r) : s = lit ++ r := by
  induction lit generalizing s with
  | nil => simpa [eatLit] using h
  | cons c l ih =>
    cases s with
    | nil => simp [eatLit] at h
    | cons x xs =>
      by_cases hx : x = c
      · subst hx
        simpa using ih (by simpa [eatLit] using h)
      · simp [eatLit, hx] at h

theorem eatLit_self (lit s : List Char) : eatLit lit (lit ++ s) = some s := by
  induction lit with
  | nil => simp [eatLit]
  | cons c l ih => simpa [eatLit] using ih

theorem takeWhile_app_stop {p : Char → Bool} {w : List Char} (hw : ∀ x ∈ w, p x = true)
    {c : Char} (hc : p c = false) (r : List Char) :
    (w ++ c :: r).takeWhile p = w ∧ (w ++ c :: r).dropWhile p = c :: r := by
  induction w with
  | nil => simp [List.takeWhile_cons, List.dropWhile_cons, hc]
  | cons a l ih =>
    have ha : p a = true := hw a (by simp)
    have hl : ∀ x ∈ l, p x = true := fun x hx => hw x (by simp [hx])
    have := ih hl
    simp [List.takeWhile_cons, List.dropWhile_cons, ha, this.1, this.2]

theorem dropWhile_head_false {p : Char → Bool} {l : List Char} {x : Char} {xs : List Char}
    (h : l.dropWhile p = x :: xs) : p x = false := by
  induction l with
  | nil => simp [List.dropWhile] at h
  | cons a as ih =>
    rw [List.dropWhile_cons] at h
    by_cases ha : p a = true
    · rw [if_pos ha] at h; exact ih h
    · rw [if_neg ha] at h
      obtain ⟨h1, _⟩ := List.cons.injEq a as x xs ▸ h
      simpa [← h1] using ha

theorem eatWsThen_some {c : Char} {s w r : List Char} (h : eatWsThen c s = some (w, r)) :
    s = w ++ c :: r ∧ (∀ x ∈ w, pyWs x = true) ∧ pyWs c = false := by
  unfold eatWsThen at h
  rcases hd : s.dropWhile pyWs with _ | ⟨x, rs⟩
  · rw [hd] at h; simp at h
  · rw [hd] at h
    by_cases hx : x = c
    · subst hx
      simp at h
      obtain ⟨hw, hr⟩ := h
      subst hw; subst hr
      refine ⟨?_, fun y hy => List.mem_takeWhile_imp hy, dropWhile_head_false hd⟩
      conv_lhs => rw [(List.takeWhile_append_dropWhile pyWs s).symm]
      rw [hd]
    · simp [hx] at h

theorem eatWsThen_build {c : Char} (hc : pyWs c = false) {w : List Char}
    (hw : ∀ x ∈ w, pyWs x = true) (r : List Char) :
    eatWsThen c (w ++ c :: r) = some (w, r) := by
  have h := takeWhile_app_stop hw hc r
  simp [eatWsThen, h.1, h.2]

/-! ## Parsing: claims C4 and C5 -/

theorem parseLinesLoop_eq (ls : List (List Char)) :
    parseLinesLoop ls = (ls.map pyStrip).filter
      (fun l => decide (l ≠ [] ∧ l.head? ≠ some '#' ∧ l.head? ≠ some '-')) := by
  induction ls with
  | nil => rfl
  | cons l ls ih =>
    by_cases h1 : pyStrip l = []
    · simp [parseLinesLoop, List.filter_cons, h1, ih]
    · by_cases h2 : (pyStrip l).head? = some '#'
      · simp [parseLinesLoop, List.filter_cons, h1, h2, ih]
      · by_cases h3 : (pyStrip l).head? = some '-'
        · simp [parseLinesLoop, List.filter_cons, h1, h2, h3, ih]
        · simp [parseLinesLoop, List.filter_cons, h1, h2, h3, ih]

/-- C4: parsing a missing requirements file yields the empty list, and
parsing a present one yields exactly the whitespace-trimmed lines that are
non-empty and start with neither a comment marker nor a flag marker,
verbatim, in their original order and without deduplication. -/
theorem c4_parse_requirements_exact_lines :
    parse_requirements none = [] ∧
    ∀ txt, parse_requirements (some txt) =
      ((pySplitlines txt).map pyStrip).filter
        (fun l => decide (l ≠ [] ∧ l.head? ≠ some '#' ∧ l.head? ≠ some '-')) :=
  ⟨rfl, fun _ => parseLinesLoop_eq _⟩

/-- C5: an empty parsed entry list renders as the empty string, and the
synchronizer skips the substitution pass for that label entirely, leaving
the configuration document byte-identical as far as that pass is
concerned. -/
theorem c5_empty_parsed_list_never_rewrites :
    format_dependencies [] 4 = [] ∧
    (∀ content req dev, parse_requirements req = [] →
      (sync_to_pyproject content req dev).1 =
        (if parse_requirements dev = [] then content
         else subAllC labelTest (format_dependencies (parse_requirements dev) 4) content)) ∧
    (∀ content req dev, parse_requirements dev = [] →
      (sync_to_pyproject content req dev).1 =
        (if parse_requirements req = [] then content
         else subAllC labelDeps (format_dependencies (parse_requirements req) 4) content)) := by
  refine ⟨rfl, ?_, ?_⟩ <;> intro content req dev h <;> simp [sync_to_pyproject, h]

/-- Witness for C5: a requirements file holding only comments, blanks and
flag directives parses to the empty list and the document is untouched. -/
theorem c5_empty_parsed_list_never_rewrites_witness :
    (sync_to_pyproject "x".data (some "# only\n-r base.txt\n  \n".data) none).1 = "x".data := by
  have h := c5_empty_parsed_list_never_rewrites.2.1 "x".data
    (some "# only\n-r base.txt\n  \n".data) none (by rfl)
  simpa using h

/-! ## Write-back policy: claim C6 -/

/-- C6: each synchronizer reports "changed" exactly when the freshly
computed content differs from the original under list equality, and the
target file content after the run is the original whenever they agree.  In
the version-not-found branch of sync_version, nothing is computed and the
initializer is untouched with a "no change" report. -/
theorem c6_write_back_policy :
    (∀ content req dev,
      ((sync_to_pyproject content req dev).2 = true ↔
        (sync_to_pyproject content req dev).1 ≠ content)) ∧
    (∀ py init v, get_pyproject_version py = some v →
      (sync_version py init).fileAfter =
        (if subAllB v init = init then init else subAllB v init) ∧
      ((sync_version py init).changed = true ↔ subAllB v init ≠ init)) ∧
    (∀ py init, get_pyproject_version py = none →
      (sync_version py init).changed = false ∧ (sync_version py init).fileAfter = init) := by
  refine ⟨?_, ?_, ?_⟩
  · intro content req dev
    simp [sync_to_pyproject]
  · intro py init v h
    simp [sync_version, h]
  · intro py init h
    simp [sync_version, h]

/-- Witness for C6, at a configuration document whose version is 1.2.3. -/
theorem c6_write_back_policy_witness :
    ((sync_version "version = \"1.2.3\"\n".data "__version__ = \"1.0.0\"\n".data).changed = true ↔
      subAllB "1.2.3".data "__version__ = \"1.0.0\"\n".data ≠ "__version__ = \"1.0.0\"\n".data) :=
  (c6_write_back_policy.2.1 "version = \"1.2.3\"\n".data "__version__ = \"1.0.0\"\n".data
    "1.2.3".data rfl).2

/-! ## Claim C1: missing version line -/

/-- C1: on a configuration document with no version line, sync_version
prints the version-not-found error (found = false) and leaves the
initializer untouched — but main then reports "__version__ already in sync"
and exits with code 0, not 1: the False return value of sync_version is
indistinguishable from the no-change case.  This theorem documents the
code's actual behaviour at such an input. -/
theorem c1_version_not_found_exits_zero :
    get_pyproject_version "[project]\nname = \"lango\"\n".data = none ∧
    (sync_version "[project]\nname = \"lango\"\n".data
        "__version__ = \"0.1.0\"\n".data).found = false ∧
    (sync_version "[project]\nname = \"lango\"\n".data
        "__version__ = \"0.1.0\"\n".data).fileAfter = "__version__ = \"0.1.0\"\n".data ∧
    syncVersionMain true true "[project]\nname = \"lango\"\n".data
        "__version__ = \"0.1.0\"\n".data = (0, "__version__ = \"0.1.0\"\n".data) :=
  ⟨rfl, rfl, rfl, rfl⟩

/-! ## Claim C2: counterexample -/

/-- C2 counterexample: with two dependencies arrays in the document, the
substitution rewrites both occurrences (re.sub with no count replaces every
non-overlapping match), so the output is not the only-first-rewritten
document the claim predicts. -/
theorem c2_counterexample_second_occurrence_also_rewritten :
    (sync_to_pyproject
        "dependencies = [\n    \"a\",\n]\nmid\ndependencies = [\n    \"b\",\n]\n".data
        (some "new==2".data) none).1
      = "dependencies = [\n    \"new==2\",\n]\nmid\ndependencies = [\n    \"new==2\",\n]\n".data ∧
    "dependencies = [\n    \"new==2\",\n]\nmid\ndependencies = [\n    \"new==2\",\n]\n".data
      ≠ "dependencies = [\n    \"new==2\",\n]\nmid\ndependencies = [\n    \"b\",\n]\n".data :=
  ⟨rfl, by decide⟩

/-! ## Claim C10: version extraction -/

theorem tryMatchA_some {s v : List Char} (h : tryMatchA s = some v) :
    ∃ w1 w2 rest, s = "version".data ++ w1 ++ '=' :: w2 ++ '"' :: v ++ '"' :: rest ∧
      (∀ x ∈ w1, pyWs x = true) ∧ (∀ x ∈ w2, pyWs x = true) ∧
      v ≠ [] ∧ (∀ c ∈ v, c ≠ '"') := by
  unfold tryMatchA at h
  rcases h1 : eatLit "version".data s with _ | r1
  · rw [h1] at h; exact absurd h (by simp)
  rw [h1] at h; dsimp only at h
  rcases h2 : eatWsThen '=' r1 with _ | ⟨w1, r2⟩
  · rw [h2] at h; exact absurd h (by simp)
  rw [h2] at h; dsimp only at h
  rcases h3 : eatWsThen '"' r2 with _ | ⟨w2, r3⟩
  · rw [h3] at h; exact absurd h (by simp)
  rw [h3] at h; dsimp only at h
  rcases h4 : r3.dropWhile (fun c => c ≠ '"') with _ | ⟨q, r4⟩
  · rw [h4] at h; exact absurd h (by simp)
  rw [h4] at h; dsimp only at h
  by_cases hq : q = '"'
  · rw [if_pos hq] at h
    by_cases hz : r3.takeWhile (fun c => c ≠ '"') = []
    · rw [if_pos hz] at h; exact absurd h (by simp)
    · rw [if_neg hz] at h
      have hv : r3.takeWhile (fun c => c ≠ '"') = v := by simpa using h
      subst hq
      refine ⟨w1, w2, r4, ?_, (eatWsThen_some h2).2.1, (eatWsThen_some h3).2.1, ?_, ?_⟩
      · have e1 := eatLit_some h1
        have e2 := (eatWsThen_some h2).1
        have e3 := (eatWsThen_some h3).1
        have e4 : r3 = v ++ '"' :: r4 := by
          conv_lhs => rw [(List.takeWhile_append_dropWhile (fun c => decide (c ≠ '"')) r3).symm]
          rw [h4, hv]
        rw [e1, e2, e3, e4]
        simp
      · exact hv ▸ hz
      · intro c hc
        rw [← hv] at hc
        have := List.mem_takeWhile_imp hc
        simpa using this
  · rw [if_neg hq] at h
    exact absurd h (by simp)

theorem searchA_sound : ∀ (s : List Char) (b : Bool) (v : List Char), searchA b s = some v →
    ∃ pre w1 w2 rest,
      s = pre ++ "version".data ++ w1 ++ '=' :: w2 ++ '"' :: v ++ '"' :: rest ∧
      ((pre = [] ∧ b = true) ∨ ∃ pre2, pre = pre2 ++ ['\n']) ∧
      (∀ x ∈ w1, pyWs x = true) ∧ (∀ x ∈ w2, pyWs x = true) ∧
      v ≠ [] ∧ (∀ c ∈ v, c ≠ '"') := by
  intro s
  induction s with
  | nil => intro b v h; simp [searchA] at h
  | cons c cs ih =>
    intro b v h
    unfold searchA at h
    rcases hb : (if b then tryMatchA (c :: cs) else none) with _ | v2
    · rw [hb] at h
      obtain ⟨pre, w1, w2, rest, hs, hpre, hw1, hw2, hv, hq⟩ := ih (c = '\n') v h
      refine ⟨c :: pre, w1, w2, rest, by simp [hs], ?_, hw1, hw2, hv, hq⟩
      right
      rcases hpre with ⟨hpe, hbe⟩ | ⟨pre2, hp2⟩
      · subst hpe
        simp at hbe
        exact ⟨[], by simp [hbe]⟩
      · exact ⟨c :: pre2, by simp [hp2]⟩
    · rw [hb] at h
      have hv2 : v2 = v := by simpa using h
      subst hv2
      by_cases hbt : b = true
      · rw [hbt] at hb
        simp at hb
        obtain ⟨w1, w2, rest, hs, hw1, hw2, hv, hq⟩ := tryMatchA_some hb
        exact ⟨[], w1, w2, rest, by simpa using hs, Or.inl ⟨rfl, hbt⟩, hw1, hw2, hv, hq⟩
      · simp [hbt] at hb

/-- C10: the extraction succeeds only on a line-start occurrence of the
version pattern with a non-empty double-quoted value; with an empty value or
single quotes it fails, and sync_version then takes the version-not-found
path, leaving the initializer untouched (it is never read or written). -/
theorem c10_version_extraction_needs_nonempty_double_quotes :
    (∀ content v, get_pyproject_version content = some v →
      v ≠ [] ∧ (∀ c ∈ v, c ≠ '"') ∧
      ∃ pre w1 w2 rest,
        content = pre ++ "version".data ++ w1 ++ '=' :: w2 ++ '"' :: v ++ '"' :: rest ∧
        (pre = [] ∨ ∃ pre2, pre = pre2 ++ ['\n']) ∧
        (∀ x ∈ w1, pyWs x = true) ∧ (∀ x ∈ w2, pyWs x = true)) ∧
    get_pyproject_version "version = \"\"\n".data = none ∧
    (∀ init, sync_version "version = \"\"\n".data init = ⟨false, init, false⟩) ∧
    get_pyproject_version "version = \x271.2.3\x27\n".data = none ∧
    (∀ init, sync_version "version = \x271.2.3\x27\n".data init = ⟨false, init, false⟩) := by
  refine ⟨?_, rfl, ?_, rfl, ?_⟩
  · intro content v h
    obtain ⟨pre, w1, w2, rest, hs, hpre, hw1, hw2, hv, hq⟩ :=
      searchA_sound content true v h
    refine ⟨hv, hq, pre, w1, w2, rest, hs, ?_, hw1, hw2⟩
    rcases hpre with ⟨hpe, _⟩ | hp2
    · exact Or.inl hpe
    · exact Or.inr hp2
  · intro init
    simp [sync_version, show get_pyproject_version "version = \"\"\n".data = none from rfl]
  · intro init
    simp [sync_version,
      show get_pyproject_version "version = \x271.2.3\x27\n".data = none from rfl]

/-- Witness for C10, applying the characterization at a well-formed
document. -/
theorem c10_version_extraction_needs_nonempty_double_quotes_witness :
    ∃ pre w1 w2 rest,
      "version = \"1.2.3\"\n".data =
        pre ++ "version".data ++ w1 ++ '=' :: w2 ++ '"' :: "1.2.3".data ++ '"' :: rest ∧
      (pre = [] ∨ ∃ pre2, pre = pre2 ++ ['\n']) ∧
      (∀ x ∈ w1, pyWs x = true) ∧ (∀ x ∈ w2, pyWs x = true) :=
  (c10_version_extraction_needs_nonempty_double_quotes.1
    "version = \"1.2.3\"\n".data "1.2.3".data rfl).2.2

/-! ## Context lemmas: how the staged matchers behave under appending -/

theorem eatLit_append_some {lit a r : List Char} (h : eatLit lit a = some r) (t : List Char) :
    eatLit lit (a ++ t) = some (r ++ t) := by
  rw [eatLit_some h, List.append_assoc]
  exact eatLit_self _ _

theorem eatLit_none_cases {lit a : List Char} (h : eatLit lit a = none) :
    (∀ t, eatLit lit (a ++ t) = none) ∨
    (∃ l2, l2 ≠ [] ∧ lit = a ++ l2 ∧ ∀ t, eatLit lit (a ++ t) = eatLit l2 t) := by
  induction lit generalizing a with
  | nil => simp [eatLit] at h
  | cons c l ih =>
    cases a with
    | nil =>
      right
      exact ⟨c :: l, by simp, rfl, fun t => by simp⟩
    | cons x xs =>
      by_cases hx : x = c
      · subst hx
        have h2 : eatLit l xs = none := by simpa [eatLit] using h
        rcases ih h2 with h3 | ⟨l2, hne, hl, h4⟩
        · left
          intro t
          simpa [eatLit] using h3 t
        · right
          exact ⟨l2, hne, by simp [hl], fun t => by simpa [eatLit] using h4 t⟩
      · left
        intro t
        simp [eatLit, hx]

theorem eatWsThen_append_some {c : Char} {a w r : List Char}
    (h : eatWsThen c a = some (w, r)) (t : List Char) :
    eatWsThen c (a ++ t) = some (w, r ++ t) := by
  obtain ⟨ha, hw, hc⟩ := eatWsThen_some h
  have h2 : a ++ t = w ++ c :: (r ++ t) := by rw [ha]; simp
  rw [h2]
  exact eatWsThen_build hc hw _

theorem eatWsThen_none_blocked {c : Char} {a : List Char} (h : eatWsThen c a = none)
    (hne : a.dropWhile pyWs ≠ []) (t : List Char) : eatWsThen c (a ++ t) = none := by
  rcases hd : a.dropWhile pyWs with _ | ⟨x, xs⟩
  · exact absurd hd hne
  have hx : x ≠ c := by
    intro he
    subst he
    simp [eatWsThen, hd] at h
  simp [eatWsThen, List.dropWhile_append, hd, hx]

theorem takeWhile_eq_of_dropWhile_nil {p : Char → Bool} {a : List Char}
    (ha : a.dropWhile p = []) : a.takeWhile p = a := by
  have := List.takeWhile_append_dropWhile p a
  rw [ha] at this
  simpa using this

theorem eatWsThen_all_ws {c : Char} {a : List Char} (ha : a.dropWhile pyWs = [])
    (t : List Char) :
    eatWsThen c (a ++ t) = (eatWsThen c t).map (fun p => (a ++ p.1, p.2)) := by
  have h1 : (a ++ t).dropWhile pyWs = t.dropWhile pyWs := by
    simp [List.dropWhile_append, ha]
  have h2 : (a ++ t).takeWhile pyWs = a ++ t.takeWhile pyWs := by
    rw [List.takeWhile_append, if_pos]
    rw [takeWhile_eq_of_dropWhile_nil ha]
  unfold eatWsThen
  rw [h1, h2]
  cases hdt : t.dropWhile pyWs with
  | nil => simp
  | cons x xs =>
    by_cases hx : x = c
    · simp [hx]
    · simp [hx]

/-! ## Characterization of the version-assignment matcher -/

theorem tryMatchB_some {s r : List Char} (h : tryMatchB s = some r) :
    ∃ w1 w2 v2 mid, s = "__version__".data ++ w1 ++ '=' :: w2 ++ '"' :: v2 ++ '"' :: mid ++ r ∧
      (∀ x ∈ w1, pyWs x = true) ∧ (∀ x ∈ w2, pyWs x = true) ∧
      v2 ≠ [] ∧ (∀ c ∈ v2, c ≠ '"') ∧ (∀ c ∈ mid, c ≠ '\n') ∧
      (r = [] ∨ r.head? = some '\n') := by
  unfold tryMatchB at h
  rcases h1 : eatLit "__version__".data s with _ | r1
  · rw [h1] at h; exact absurd h (by simp)
  rw [h1] at h; dsimp only at h
  rcases h2 : eatWsThen '=' r1 with _ | ⟨w1, r2⟩
  · rw [h2] at h; exact absurd h (by simp)
  rw [h2] at h; dsimp only at h
  rcases h3 : eatWsThen '"' r2 with _ | ⟨w2, r3⟩
  · rw [h3] at h; exact absurd h (by simp)
  rw [h3] at h; dsimp only at h
  rcases h4 : r3.dropWhile (fun c => c ≠ '"') with _ | ⟨q, r4⟩
  · rw [h4] at h; exact absurd h (by simp)
  rw [h4] at h; dsimp only at h
  by_cases hq : q = '"'
  · rw [if_pos hq] at h
    by_cases hz : r3.takeWhile (fun c => c ≠ '"') = []
    · rw [if_pos hz] at h; exact absurd h (by simp)
    · rw [if_neg hz] at h
      have hr : r4.dropWhile (fun c => c ≠ '\n') = r := by simpa using h
      subst hq
      refine ⟨w1, w2, r3.takeWhile (fun c => c ≠ '"'), r4.takeWhile (fun c => c ≠ '\n'),
        ?_, (eatWsThen_some h2).2.1, (eatWsThen_some h3).2.1, hz, ?_, ?_, ?_⟩
      · have e1 := eatLit_some h1
        have e2 := (eatWsThen_some h2).1
        have e3 := (eatWsThen_some h3).1
        have e4 : r3 = r3.takeWhile (fun c => c ≠ '"') ++ '"' :: r4 := by
          conv_lhs => rw [(List.takeWhile_append_dropWhile (fun c => decide (c ≠ '"')) r3).symm]
          rw [h4]
        have e5 : r4 = r4.takeWhile (fun c => c ≠ '\n') ++ r := by
          conv_lhs => rw [(List.takeWhile_append_dropWhile (fun c => decide (c ≠ '\n')) r4).symm]
          rw [hr]
        rw [e1, e2, e3]
        conv_lhs => rw [e4]
        conv_lhs => rw [e5]
        simp
      · intro c hc
        have := List.mem_takeWhile_imp hc
        simpa using this
      · intro c hc
        have := List.mem_takeWhile_imp hc
        simpa using this
      · rcases hrc : r with _ | ⟨y, ys⟩
        · exact Or.inl rfl
        · right
          rw [hrc] at hr
          have := dropWhile_head_false hr
          simp at this
          simp [this]
  · rw [if_neg hq] at h
    exact absurd h (by simp)

theorem tryMatchB_len {s r : List Char} (h : tryMatchB s = some r) : r.length < s.length := by
  obtain ⟨w1, w2, v2, mid, hs, _, _, hv, _⟩ := tryMatchB_some h
  rw [hs]
  simp [List.length_append]
  omega

/-! ## Line-by-line behaviour of the version-assignment substitution

A line of an initializer document is classified by a probe: it either
matches the pattern completely within the line (fires), fails the pattern
in a way that no continuation can repair (failsLocal), or begins a partial
match whose whitespace run or quoted value would run past the end of the
line (risky) — in the risky case the underlying pattern can span several
physical lines, because the ws class and the non-quote class both contain
the newline character. -/


/-- A line that fires matches exactly up to the line end: the remainder of
the whole-document match is the continuation after the line. -/
theorem probe_fires {l t : List Char} (hnl : '\n' ∉ l)
    (ht : t = [] ∨ ∃ z, t = '\n' :: z) (h : lineProbe l = .fires) :
    tryMatchB (l ++ t) = some t := by
  unfold lineProbe at h
  rcases h1 : eatLit "__version__".data l with _ | r1
  · rw [h1] at h; exact absurd h (by decide)
  rw [h1] at h; dsimp only at h
  rcases h2 : eatWsThen '=' r1 with _ | ⟨w1, r2⟩
  · rw [h2] at h
    by_cases hd : r1.dropWhile pyWs = []
    · rw [if_pos hd] at h; exact absurd h (by decide)
    · rw [if_neg hd] at h; exact absurd h (by decide)
  rw [h2] at h; dsimp only at h
  rcases h3 : eatWsThen '"' r2 with _ | ⟨w2, r3⟩
  · rw [h3] at h
    by_cases hd : r2.dropWhile pyWs = []
    · rw [if_pos hd] at h; exact absurd h (by decide)
    · rw [if_neg hd] at h; exact absurd h (by decide)
  rw [h3] at h; dsimp only at h
  rcases h4 : r3.dropWhile (fun c => c ≠ '"') with _ | ⟨q, r4⟩
  · rw [h4] at h; dsimp only at h; exact absurd h (by decide)
  rw [h4] at h; dsimp only at h
  by_cases hz : r3.takeWhile (fun c => c ≠ '"') = []
  · rw [if_pos hz] at h; exact absurd h (by decide)
  have hq : q = '"' := by
    have := dropWhile_head_false h4
    simpa using this
  subst hq
  have e4 : r3 = r3.takeWhile (fun c => c ≠ '"') ++ '"' :: r4 := by
    conv_lhs => rw [(List.takeWhile_append_dropWhile (fun c => decide (c ≠ '"')) r3).symm]
    rw [h4]
  unfold tryMatchB
  rw [eatLit_append_some h1 t]; dsimp only
  rw [eatWsThen_append_some h2 t]; dsimp only
  rw [eatWsThen_append_some h3 t]; dsimp only
  have htk : ∀ x ∈ List.takeWhile (fun c => decide (c ≠ '"')) r3,
      (fun c : Char => decide (c ≠ '"')) x = true := by
    intro x hx
    exact @List.mem_takeWhile_imp Char (fun c => decide (c ≠ '"')) r3 x hx
  have hqf : (fun c : Char => decide (c ≠ '"')) '"' = false := by simp
  have hstop := @takeWhile_app_stop (fun c => decide (c ≠ '"'))
    (List.takeWhile (fun c => decide (c ≠ '"')) r3) htk '"' hqf (r4 ++ t)
  have e5 : r3 ++ t = List.takeWhile (fun c => decide (c ≠ '"')) r3 ++ '"' :: (r4 ++ t) := by
    conv_lhs => rw [e4]
    simp
  rw [e5, hstop.1, hstop.2]; dsimp only
  rw [if_pos rfl, if_neg hz]
  have hr4 : ∀ c ∈ r4, c ≠ '\n' := by
    intro c hc he
    subst he
    apply hnl
    rw [eatLit_some h1, (eatWsThen_some h2).1, (eatWsThen_some h3).1, e4]
    simp [hc]
  have hall : r4.dropWhile (fun c => c ≠ '\n') = [] := by
    rw [List.dropWhile_eq_nil_iff]
    intro x hx
    simpa using hr4 x hx
  have hdw : ∀ t2 : List Char, (t2 = [] ∨ ∃ z, t2 = '\n' :: z) →
      (r4 ++ t2).dropWhile (fun c => c ≠ '\n') = t2 := by
    intro t2 ht2
    rw [List.dropWhile_append, hall]
    rcases ht2 with rfl | ⟨z, rfl⟩
    · simp
    · simp [List.dropWhile_cons]
  rcases ht with rfl | ⟨z, rfl⟩
  · rw [hdw [] (Or.inl rfl)]
  · rw [hdw ('\n' :: z) (Or.inr ⟨z, rfl⟩)]

/-- A line that fails locally contributes no match, whatever follows the
line. -/
theorem probe_fails {l t : List Char} (ht : t = [] ∨ ∃ z, t = '\n' :: z)
    (h : lineProbe l = .failsLocal) : tryMatchB (l ++ t) = none := by
  unfold lineProbe at h
  rcases h1 : eatLit "__version__".data l with _ | r1
  · rcases eatLit_none_cases h1 with h2 | ⟨l2, hne, hl, h2⟩
    · unfold tryMatchB
      rw [h2 t]
    · unfold tryMatchB
      rw [h2 t]
      have hln : eatLit l2 t = none := by
        cases l2 with
        | nil => exact absurd rfl hne
        | cons c2 cs2 =>
          have hc2 : c2 ≠ '\n' := by
            intro he
            have hm : c2 ∈ "__version__".data := by
              rw [hl]
              simp
            rw [he] at hm
            simp at hm
          rcases ht with rfl | ⟨z, rfl⟩
          · rfl
          · show (if '\n' = c2 then eatLit cs2 z else none) = none
            rw [if_neg (fun he2 => hc2 he2.symm)]
      rw [hln]
  · rw [h1] at h; dsimp only at h
    rcases h2 : eatWsThen '=' r1 with _ | ⟨w1, r2⟩
    · rw [h2] at h
      by_cases hd : r1.dropWhile pyWs = []
      · rw [if_pos hd] at h; exact absurd h (by decide)
      · unfold tryMatchB
        rw [eatLit_append_some h1 t]; dsimp only
        rw [eatWsThen_none_blocked h2 hd t]
    · rw [h2] at h; dsimp only at h
      rcases h3 : eatWsThen '"' r2 with _ | ⟨w2, r3⟩
      · rw [h3] at h
        by_cases hd : r2.dropWhile pyWs = []
        · rw [if_pos hd] at h; exact absurd h (by decide)
        · unfold tryMatchB
          rw [eatLit_append_some h1 t]; dsimp only
          rw [eatWsThen_append_some h2 t]; dsimp only
          rw [eatWsThen_none_blocked h3 hd t]
      · rw [h3] at h; dsimp only at h
        rcases h4 : r3.dropWhile (fun c => c ≠ '"') with _ | ⟨q, r4⟩
        · rw [h4] at h; dsimp only at h; exact absurd h (by decide)
        rw [h4] at h; dsimp only at h
        by_cases hz : r3.takeWhile (fun c => c ≠ '"') = []
        · have hq : q = '"' := by
            have := dropWhile_head_false h4
            simpa using this
          subst hq
          have e4 : r3 = '"' :: r4 := by
            conv_lhs => rw [(List.takeWhile_append_dropWhile (fun c => decide (c ≠ '"')) r3).symm]
            rw [h4, hz]
            simp
          unfold tryMatchB
          rw [eatLit_append_some h1 t]; dsimp only
          rw [eatWsThen_append_some h2 t]; dsimp only
          rw [eatWsThen_append_some h3 t]; dsimp only
          have e5 : r3 ++ t = '"' :: (r4 ++ t) := by rw [e4]; simp
          rw [e5]
          simp [List.takeWhile_cons, List.dropWhile_cons]
        · rw [if_neg hz] at h; exact absurd h (by decide)

/-! ## The version-assignment scan, line by line -/

theorem subBGo_step_none {v : List Char} {b : Bool} {c : Char} {cs : List Char} {f : Nat}
    (h : (if b then tryMatchB (c :: cs) else none) = none) :
    subBGo v (f + 1) b (c :: cs) = c :: subBGo v f (c = '\n') cs := by
  conv_lhs => rw [subBGo]
  rw [h]

theorem subBGo_step_some {v : List Char} {b : Bool} {c : Char} {cs rest : List Char} {f : Nat}
    (h : (if b then tryMatchB (c :: cs) else none) = some rest) :
    subBGo v (f + 1) b (c :: cs) = canonLine v ++ subBGo v f false rest := by
  conv_lhs => rw [subBGo]
  rw [h]

theorem subBGo_nil (v : List Char) (f : Nat) (b : Bool) : subBGo v f b [] = [] := by
  cases f <;> rfl

theorem subBGo_walk (v : List Char) : ∀ (l : List Char), '\n' ∉ l → ∀ (t : List Char) (f : Nat),
    subBGo v (f + l.length) false (l ++ t) = l ++ subBGo v f false t := by
  intro l
  induction l with
  | nil => intro _ t f; simp
  | cons c cl ih =>
    intro hnl t f
    have hc : c ≠ '\n' := fun he => hnl (he ▸ List.mem_cons_self c cl)
    have he : f + (c :: cl).length = (f + cl.length) + 1 := by simp; omega
    rw [List.cons_append, he, subBGo_step_none (by rfl)]
    rw [show (decide (c = '\n')) = false by simp [hc]]
    rw [ih (fun hm2 => hnl (List.mem_cons_of_mem c hm2)) t f]
    simp

/-- Emitting one locally failing line: the scan copies the line and the
line-start flag is off at the continuation. -/
theorem subB_fail_line (v : List Char) {c : Char} {cs t : List Char}
    (hnl : '\n' ∉ (c :: cs)) (hp : lineProbe (c :: cs) = LineProbe.failsLocal)
    (ht : t = [] ∨ ∃ z, t = '\n' :: z) (f : Nat) :
    subBGo v (f + (c :: cs).length) true ((c :: cs) ++ t) =
      (c :: cs) ++ subBGo v f false t := by
  have hm := probe_fails ht hp
  have hc : c ≠ '\n' := fun he => hnl (he ▸ List.mem_cons_self c cs)
  have he : f + (c :: cs).length = (f + cs.length) + 1 := by simp; omega
  rw [List.cons_append, he, subBGo_step_none (by rw [if_pos rfl]; simpa using hm)]
  rw [show (decide (c = '\n')) = false by simp [hc]]
  rw [subBGo_walk v cs (fun hm2 => hnl (List.mem_cons_of_mem c hm2)) t f]
  rfl


theorem joinLines_cons2 (l l2 : List Char) (ls : List (List Char)) :
    joinLines (l :: l2 :: ls) = l ++ '\n' :: joinLines (l2 :: ls) := rfl

/-- Master lemma for the version-assignment substitution: on a document
whose physical lines are all classified fires or failsLocal, the scan
replaces exactly the firing lines with the canonical line and copies
everything else. -/
theorem subB_lines (v : List Char) : ∀ (lines : List (List Char)),
    (∀ l ∈ lines, '\n' ∉ l) → (∀ l ∈ lines, lineProbe l ≠ LineProbe.risky) →
    ∀ f, (joinLines lines).length ≤ f →
    subBGo v f true (joinLines lines) =
      joinLines (lines.map (fun l => if lineProbe l = LineProbe.fires then canonLine v else l)) := by
  intro lines
  induction lines with
  | nil =>
    intro _ _ f _
    exact subBGo_nil v f true
  | cons l ls ih =>
    intro hnl hrisk f hf
    have hnll : '\n' ∉ l := hnl l (by simp)
    have hriskl : lineProbe l ≠ LineProbe.risky := hrisk l (by simp)
    cases ls with
    | nil =>
      cases hp : lineProbe l with
      | risky => exact absurd hp hriskl
      | fires =>
        have hm := probe_fires hnll (Or.inl rfl) hp
        rw [List.append_nil] at hm
        cases l with
        | nil => exact absurd hp (by decide)
        | cons c cs =>
          have hf1 : 1 ≤ f := by
            have : (joinLines [c :: cs]).length = cs.length + 1 := by
              show (c :: cs).length = cs.length + 1
              simp
            omega
          obtain ⟨g, rfl⟩ : ∃ g, f = g + 1 := ⟨f - 1, by omega⟩
          show subBGo v (g + 1) true (c :: cs) = _
          rw [subBGo_step_some (by rw [if_pos rfl]; exact hm)]
          rw [subBGo_nil, List.append_nil]
          simp [joinLines, hp]
      | failsLocal =>
        cases l with
        | nil =>
          show subBGo v f true [] = _
          rw [subBGo_nil]
          simp [joinLines, hp]
        | cons c cs =>
          have hf1 : (c :: cs).length ≤ f := hf
          obtain ⟨g, rfl⟩ : ∃ g, f = g + (c :: cs).length := ⟨f - (c :: cs).length, by omega⟩
          have := subB_fail_line v hnll hp (Or.inl rfl) g
          rw [List.append_nil] at this
          show subBGo v (g + (c :: cs).length) true (c :: cs) = _
          rw [this, subBGo_nil, List.append_nil]
          simp [joinLines, hp]
    | cons l2 ls2 =>
      have hnls : ∀ x ∈ l2 :: ls2, '\n' ∉ x := fun x hx => hnl x (by simp [hx])
      have hrisks : ∀ x ∈ l2 :: ls2, lineProbe x ≠ LineProbe.risky :=
        fun x hx => hrisk x (by simp [hx])
      have hlen : (joinLines (l :: l2 :: ls2)).length
          = l.length + 1 + (joinLines (l2 :: ls2)).length := by
        rw [joinLines_cons2]
        simp
        omega
      cases hp : lineProbe l with
      | risky => exact absurd hp hriskl
      | fires =>
        have hm := probe_fires hnll (Or.inr ⟨joinLines (l2 :: ls2), rfl⟩) hp
        cases l with
        | nil => exact absurd hp (by decide)
        | cons c cs =>
          have hfl : (c :: cs).length + 1 + (joinLines (l2 :: ls2)).length ≤ f := by
            rw [← hlen]
            exact hf
          have h1 : 1 ≤ (c :: cs).length := by simp
          obtain ⟨g, rfl⟩ : ∃ g, f = g + 2 := ⟨f - 2, by omega⟩
          rw [joinLines_cons2]
          show subBGo v (g + 1 + 1) true ((c :: cs) ++ '\n' :: joinLines (l2 :: ls2)) = _
          rw [List.cons_append]
          rw [subBGo_step_some (by rw [if_pos rfl]; simpa using hm)]
          rw [subBGo_step_none (by rfl)]
          rw [show (decide ('\n' = '\n')) = true by simp]
          rw [ih hnls hrisks g (by omega)]
          simp [joinLines_cons2, hp]
      | failsLocal =>
        cases l with
        | nil =>
          have hm := @probe_fails [] ('\n' :: joinLines (l2 :: ls2))
            (Or.inr ⟨joinLines (l2 :: ls2), rfl⟩) hp
          have hfl : 1 ≤ f := by
            rw [hlen] at hf
            omega
          obtain ⟨g, rfl⟩ : ∃ g, f = g + 1 := ⟨f - 1, by omega⟩
          rw [joinLines_cons2]
          show subBGo v (g + 1) true ([] ++ '\n' :: joinLines (l2 :: ls2)) = _
          rw [List.nil_append]
          rw [subBGo_step_none (by rw [if_pos rfl]; simpa using hm)]
          rw [show (decide ('\n' = '\n')) = true by simp]
          rw [ih hnls hrisks g (by omega)]
          simp [joinLines_cons2, hp]
        | cons c cs =>
          have hfl : (c :: cs).length + 1 + (joinLines (l2 :: ls2)).length ≤ f := by
            rw [← hlen]
            exact hf
          obtain ⟨g, rfl⟩ : ∃ g, f = g + 1 + (c :: cs).length :=
            ⟨f - 1 - (c :: cs).length, by omega⟩
          rw [joinLines_cons2]
          rw [subB_fail_line v hnll hp (Or.inr ⟨joinLines (l2 :: ls2), rfl⟩) (g + 1)]
          rw [subBGo_step_none (by rfl)]
          rw [show (decide ('\n' = '\n')) = true by simp]
          rw [ih hnls hrisks g (by omega)]
          simp [joinLines_cons2, hp]

/-- A physical line fires exactly when it has the claimed shape: the dunder
version name at the line start, whitespace, an equals sign, whitespace, a
non-empty double-quoted value, and arbitrary trailing text. -/
theorem lineProbe_fires_iff (l : List Char) :
    lineProbe l = LineProbe.fires ↔
    ∃ w1 w2 vv t2, l = "__version__".data ++ w1 ++ '=' :: w2 ++ '"' :: vv ++ '"' :: t2 ∧
      (∀ x ∈ w1, pyWs x = true) ∧ (∀ x ∈ w2, pyWs x = true) ∧
      vv ≠ [] ∧ (∀ c ∈ vv, c ≠ '"') := by
  constructor
  · intro h
    unfold lineProbe at h
    rcases h1 : eatLit "__version__".data l with _ | r1
    · rw [h1] at h; exact absurd h (by decide)
    rw [h1] at h; dsimp only at h
    rcases h2 : eatWsThen '=' r1 with _ | ⟨w1, r2⟩
    · rw [h2] at h
      by_cases hd : r1.dropWhile pyWs = []
      · rw [if_pos hd] at h; exact absurd h (by decide)
      · rw [if_neg hd] at h; exact absurd h (by decide)
    rw [h2] at h; dsimp only at h
    rcases h3 : eatWsThen '"' r2 with _ | ⟨w2, r3⟩
    · rw [h3] at h
      by_cases hd : r2.dropWhile pyWs = []
      · rw [if_pos hd] at h; exact absurd h (by decide)
      · rw [if_neg hd] at h; exact absurd h (by decide)
    rw [h3] at h; dsimp only at h
    rcases h4 : r3.dropWhile (fun c => c ≠ '"') with _ | ⟨q, r4⟩
    · rw [h4] at h; dsimp only at h; exact absurd h (by decide)
    rw [h4] at h; dsimp only at h
    by_cases hz : r3.takeWhile (fun c => c ≠ '"') = []
    · rw [if_pos hz] at h; exact absurd h (by decide)
    have hq : q = '"' := by
      have := dropWhile_head_false h4
      simpa using this
    subst hq
    refine ⟨w1, w2, r3.takeWhile (fun c => c ≠ '"'), r4, ?_, (eatWsThen_some h2).2.1,
      (eatWsThen_some h3).2.1, hz, ?_⟩
    · have e4 : r3 = r3.takeWhile (fun c => c ≠ '"') ++ '"' :: r4 := by
        conv_lhs => rw [(List.takeWhile_append_dropWhile (fun c => decide (c ≠ '"')) r3).symm]
        rw [h4]
      rw [eatLit_some h1, (eatWsThen_some h2).1, (eatWsThen_some h3).1]
      conv_lhs => rw [e4]
      simp
    · intro c hc
      have := @List.mem_takeWhile_imp Char (fun c => decide (c ≠ '"')) r3 c hc
      simpa using this
  · rintro ⟨w1, w2, vv, t2, hl, hw1, hw2, hvv, hq⟩
    have hl2 : l = "__version__".data ++ (w1 ++ '=' :: (w2 ++ '"' :: (vv ++ '"' :: t2))) := by
      rw [hl]
      simp
    rw [hl2]
    unfold lineProbe
    rw [eatLit_self]; dsimp only
    rw [eatWsThen_build (by decide) hw1]; dsimp only
    rw [eatWsThen_build (by decide) hw2]; dsimp only
    have hvq : ∀ x ∈ vv, (fun c : Char => decide (c ≠ '"')) x = true := by
      intro x hx
      simpa using hq x hx
    have hstop := @takeWhile_app_stop (fun c => decide (c ≠ '"')) vv hvq '"' (by simp) t2
    rw [hstop.2]; dsimp only
    rw [hstop.1, if_neg hvv]

/-! ## Faithful templates: the backslash-free fast path -/

theorem parseTemplate_no_bs (G : Nat) : ∀ (t : List Char), '\\' ∉ t → ∀ (f : Nat),
    t.length ≤ f → parseTemplate G f t = some (t.map TItem.lit) := by
  intro t
  induction t with
  | nil =>
    intro _ f _
    cases f <;> rfl
  | cons c cs ih =>
    intro h f hf
    cases f with
    | zero => simp at hf
    | succ f =>
      have hc : ¬(c = '\\') := by
        intro he
        exact h (by rw [he]; exact List.mem_cons_self _ _)
      rw [parseTemplate, if_neg hc,
        ih (fun hm => h (List.mem_cons_of_mem c hm)) f (by simp at hf; omega)]
      rfl

theorem expandT_lits (g : Nat → List Char) : ∀ (t : List Char),
    expandT g (t.map TItem.lit) = t := by
  intro t
  induction t with
  | nil => rfl
  | cons c cs ih => rw [List.map_cons, expandT, ih]

theorem canonLine_no_bs {v : List Char} (hv : '\\' ∉ v) : '\\' ∉ canonLine v := by
  intro h
  rw [canonLine] at h
  rcases List.mem_append.mp h with h1 | h1
  · rcases List.mem_append.mp h1 with h2 | h2
    · exact absurd h2 (by decide)
    · exact hv h2
  · exact absurd h1 (by decide)

theorem subAllBX_literal {v : List Char} (hv : '\\' ∉ v) (s : List Char) :
    subAllBX v s = some (subAllB v s) := by
  rw [subAllBX, if_neg (canonLine_no_bs hv)]

/-- C7 counterexample: this initializer document has no line of the claimed
form (its only quote-bearing line has an unterminated value), yet the
substitution rewrites it, because the non-quote character class of the
pattern matches the newline and the match spans both lines.  The document
changes and the run reports a change. -/
theorem c7_counterexample_pattern_spans_lines :
    (∀ l ∈ pySplitlines "__version__ = \"x\ny\"".data, lineProbe l ≠ LineProbe.fires) ∧
    sync_versionX "version = \"1.2.3\"\n".data "__version__ = \"x\ny\"".data =
      some ⟨true, "__version__ = \"1.2.3\"  # modify in pyproject.toml".data, true⟩ ∧
    "__version__ = \"1.2.3\"  # modify in pyproject.toml".data ≠ "__version__ = \"x\ny\"".data :=
  ⟨by decide, by decide, by decide⟩

/-- C7 (amended): for a backslash-free extracted version, on documents whose
physical lines each either fully match the version-assignment form or fail it
within the line, every matching line is replaced by the canonical line,
discarding its trailing text; and when no line matches, the document is left
unchanged and the run reports no change (found = true: this is not the error
path). -/
theorem c7_version_line_canonical_replacement :
    (∀ l : List Char, lineProbe l = LineProbe.fires ↔
      ∃ w1 w2 vv t2, l = "__version__".data ++ w1 ++ '=' :: w2 ++ '"' :: vv ++ '"' :: t2 ∧
        (∀ x ∈ w1, pyWs x = true) ∧ (∀ x ∈ w2, pyWs x = true) ∧
        vv ≠ [] ∧ (∀ c ∈ vv, c ≠ '"')) ∧
    (∀ v lines, '\\' ∉ v →
      (∀ l ∈ lines, '\n' ∉ l) → (∀ l ∈ lines, lineProbe l ≠ LineProbe.risky) →
      subAllBX v (joinLines lines) =
        some (joinLines (lines.map
          (fun l => if lineProbe l = LineProbe.fires then canonLine v else l)))) ∧
    (∀ py v init lines, get_pyproject_version py = some v → '\\' ∉ v →
      init = joinLines lines →
      (∀ l ∈ lines, '\n' ∉ l) → (∀ l ∈ lines, lineProbe l = LineProbe.failsLocal) →
      sync_versionX py init = some ⟨true, init, false⟩) := by
  refine ⟨lineProbe_fires_iff, ?_, ?_⟩
  · intro v lines hv hnl hrisk
    rw [subAllBX_literal hv]
    exact congrArg some (subB_lines v lines hnl hrisk (joinLines lines).length le_rfl)
  · intro py v init lines hpy hv hinit hnl hfail
    subst hinit
    have hmap : lines.map
        (fun l => if lineProbe l = LineProbe.fires then canonLine v else l) = lines := by
      rw [List.map_congr_left (fun l hl => by rw [if_neg (by rw [hfail l hl]; decide)])]
      exact List.map_id lines
    have hid : subAllB v (joinLines lines) = joinLines lines := by
      have h0 := subB_lines v lines hnl
        (fun l hl => by rw [hfail l hl]; decide) (joinLines lines).length le_rfl
      rw [hmap] at h0
      exact h0
    rw [sync_versionX, hpy]
    dsimp only
    rw [subAllBX_literal hv, hid]
    simp

/-- Witness for the amended C7, on a document with one matching line (whose
old trailing comment is discarded) and one plain line. -/
theorem c7_version_line_canonical_replacement_witness :
    subAllBX "1.2.3".data
        (joinLines ["__version__ = \"1.0.0\"  # old comment".data, "x = 1".data]) =
      some (joinLines
        (["__version__ = \"1.0.0\"  # old comment".data, "x = 1".data].map
          (fun l => if lineProbe l = LineProbe.fires then canonLine "1.2.3".data else l))) :=
  c7_version_line_canonical_replacement.2.1 "1.2.3".data
    ["__version__ = \"1.0.0\"  # old comment".data, "x = 1".data]
    (by decide) (by decide) (by decide)

/-- C9 counterexample: the claim fails for versions containing a backslash,
which the extraction pattern accepts inside the quotes.  On a configuration
document whose version value spells a whole-match group reference, re.sub
parses the replacement template and expands the reference per match, so each
of the two matching lines is replaced by a line embedding that line's own
matched text: the output is not two copies of the canonical line. -/
theorem c9_counterexample_backslash_version_breaks_canonical_form :
    get_pyproject_version "version = \"x\\g<0>y\"\n".data = some "x\\g<0>y".data ∧
    sync_versionX "version = \"x\\g<0>y\"\n".data
        (joinLines ["__version__ = \"1\"".data, "__version__ = \"2\"".data]) =
      some ⟨true,
        ("__version__ = \"x__version__ = \"1\"y\"  # modify in pyproject.toml\n" ++
          "__version__ = \"x__version__ = \"2\"y\"  # modify in pyproject.toml").data, true⟩ ∧
    ("__version__ = \"x__version__ = \"1\"y\"  # modify in pyproject.toml\n" ++
        "__version__ = \"x__version__ = \"2\"y\"  # modify in pyproject.toml").data ≠
      joinLines [canonLine "x\\g<0>y".data, canonLine "x\\g<0>y".data] :=
  ⟨by decide, by decide, by decide⟩

/-- C9 (amended): for a backslash-free version, on a document with more than
one matching version line (all lines well-formed in the sense of the probe),
the substitution replaces every matching line, not only the first, each with
the same canonical line. -/
theorem c9_amended_every_matching_line_replaced (v : List Char) (lines : List (List Char))
    (hv : '\\' ∉ v)
    (h1 : ∀ l ∈ lines, '\n' ∉ l) (h2 : ∀ l ∈ lines, lineProbe l ≠ LineProbe.risky)
    (_h3 : 2 ≤ (lines.filter (fun l => decide (lineProbe l = LineProbe.fires))).length) :
    subAllBX v (joinLines lines) =
      some (joinLines (lines.map
        (fun l => if lineProbe l = LineProbe.fires then canonLine v else l))) ∧
    ∀ l ∈ lines, lineProbe l = LineProbe.fires →
      (if lineProbe l = LineProbe.fires then canonLine v else l) = canonLine v := by
  rw [subAllBX_literal hv]
  exact ⟨congrArg some (subB_lines v lines h1 h2 (joinLines lines).length le_rfl),
    fun _ _ hp => if_pos hp⟩

/-- Witness for the amended C9: two matching lines, both replaced. -/
theorem c9_amended_every_matching_line_replaced_witness :
    subAllBX "7.7".data
        (joinLines ["a".data, "__version__ = \"1.0.0\"  # old".data, "__version__=\"2\"".data]) =
      some (joinLines
        (["a".data, "__version__ = \"1.0.0\"  # old".data, "__version__=\"2\"".data].map
          (fun l => if lineProbe l = LineProbe.fires then canonLine "7.7".data else l))) :=
  (c9_amended_every_matching_line_replaced "7.7".data
    ["a".data, "__version__ = \"1.0.0\"  # old".data, "__version__=\"2\"".data]
    (by decide) (by decide) (by decide) (by decide)).1

/-! ## The array pattern: characterization of a match -/

theorem openerParse_some {label s g1 r3 : List Char}
    (h : openerParse label s = some (g1, r3)) :
    ∃ w1 w2, g1 = label ++ w1 ++ '=' :: w2 ++ ['['] ∧ s = g1 ++ r3 ∧
      (∀ x ∈ w1, pyWs x = true) ∧ (∀ x ∈ w2, pyWs x = true) := by
  unfold openerParse at h
  rcases h1 : eatLit label s with _ | r1
  · rw [h1] at h; exact absurd h (by simp)
  rw [h1] at h; dsimp only at h
  rcases h2 : eatWsThen '=' r1 with _ | ⟨w1, r2⟩
  · rw [h2] at h; exact absurd h (by simp)
  rw [h2] at h; dsimp only at h
  rcases h3 : eatWsThen '[' r2 with _ | ⟨w2, r4⟩
  · rw [h3] at h; exact absurd h (by simp)
  rw [h3] at h; dsimp only at h
  obtain ⟨hg, hr⟩ : label ++ w1 ++ '=' :: w2 ++ ['['] = g1 ∧ r4 = r3 := by
    constructor
    · exact congrArg Prod.fst (Option.some.inj h)
    · exact congrArg Prod.snd (Option.some.inj h)
  subst hg
  subst hr
  refine ⟨w1, w2, rfl, ?_, (eatWsThen_some h2).2.1, (eatWsThen_some h3).2.1⟩
  rw [eatLit_some h1, (eatWsThen_some h2).1, (eatWsThen_some h3).1]
  simp

theorem openerParse_build {label w1 w2 : List Char} (rest : List Char)
    (hlab : pyWs '=' = false ∧ pyWs '[' = false)
    (hw1 : ∀ x ∈ w1, pyWs x = true) (hw2 : ∀ x ∈ w2, pyWs x = true) :
    openerParse label (label ++ (w1 ++ '=' :: (w2 ++ '[' :: rest))) =
      some (label ++ w1 ++ '=' :: w2 ++ ['['], rest) := by
  unfold openerParse
  rw [eatLit_self]; dsimp only
  rw [eatWsThen_build hlab.1 hw1]; dsimp only
  rw [eatWsThen_build hlab.2 hw2]

theorem findClose_decomp : ∀ {s b w r : List Char}, findClose s = some (b, w, r) →
    s = b ++ '\n' :: w ++ ']' :: r ∧ (∀ x ∈ w, pyWs x = true) := by
  intro s
  induction s with
  | nil => intro b w r h; simp [findClose] at h
  | cons c cs ih =>
    intro b w r h
    unfold findClose at h
    by_cases hc : c = '\n'
    · rw [if_pos hc] at h
      rcases hd : cs.dropWhile pyWs with _ | ⟨q, r2⟩
      · rw [hd] at h; try dsimp only at h
        rcases h2 : findClose cs with _ | ⟨⟨b2, w2, r3⟩⟩
        · rw [h2] at h; exact absurd h (by simp)
        · rw [h2] at h; try dsimp only at h
          obtain ⟨hb, hw, hr⟩ : c :: b2 = b ∧ w2 = w ∧ r3 = r := by simpa using h
          obtain ⟨hcs, hws⟩ := ih h2
          subst hb hw hr hc
          exact ⟨by rw [hcs]; simp, hws⟩
      · rw [hd] at h; try dsimp only at h
        by_cases hq : q = ']'
        · rw [if_pos hq] at h
          obtain ⟨hb, hw, hr⟩ : ([] : List Char) = b ∧ cs.takeWhile pyWs = w ∧ r2 = r := by
            simpa using h
          subst hb hw hr hc hq
          constructor
          · have hcs : cs = cs.takeWhile pyWs ++ ']' :: r2 := by
              conv_lhs => rw [(List.takeWhile_append_dropWhile pyWs cs).symm]
              rw [hd]
            conv_lhs => rw [hcs]
            simp
          · intro x hx
            exact List.mem_takeWhile_imp hx
        · rw [if_neg hq] at h
          rcases h2 : findClose cs with _ | ⟨⟨b2, w2, r3⟩⟩
          · rw [h2] at h; exact absurd h (by simp)
          · rw [h2] at h; try dsimp only at h
            obtain ⟨hb, hw, hr⟩ : c :: b2 = b ∧ w2 = w ∧ r3 = r := by simpa using h
            obtain ⟨hcs, hws⟩ := ih h2
            subst hb hw hr hc
            exact ⟨by rw [hcs]; simp, hws⟩
    · rw [if_neg hc] at h
      rcases h2 : findClose cs with _ | ⟨⟨b2, w2, r3⟩⟩
      · rw [h2] at h; exact absurd h (by simp)
      · rw [h2] at h; try dsimp only at h
        obtain ⟨hb, hw, hr⟩ : c :: b2 = b ∧ w2 = w ∧ r3 = r := by simpa using h
        obtain ⟨hcs, hws⟩ := ih h2
        subst hb hw hr
        exact ⟨by rw [hcs]; simp, hws⟩

theorem candLoopR_some : ∀ {u gb rest w b cw r : List Char},
    candLoopR u gb rest = some (w, b, cw, r) →
    ∃ u1 u2, u = u1 ++ '\n' :: u2 ∧ w = u2.reverse ++ ['\n'] ∧
      findClose ((u1.reverse ++ gb) ++ rest) = some (b, cw, r) := by
  intro u
  induction u with
  | nil => intro gb rest w b cw r h; simp [candLoopR] at h
  | cons c rr ih =>
    intro gb rest w b cw r h
    unfold candLoopR at h
    by_cases hc : c = '\n'
    · rw [if_pos hc] at h
      rcases h2 : findClose (gb ++ rest) with _ | ⟨⟨b2, cw2, r2⟩⟩
      · rw [h2] at h; try dsimp only at h
        obtain ⟨u1, u2, hu, hw, hf⟩ := ih h
        subst hc
        refine ⟨'\n' :: u1, u2, by rw [hu]; simp, hw, ?_⟩
        have e : (('\n' :: u1).reverse ++ gb) ++ rest = (u1.reverse ++ '\n' :: gb) ++ rest := by
          simp
        rw [e]
        exact hf
      · rw [h2] at h; try dsimp only at h
        obtain ⟨hw, hb, hcw, hr⟩ :
            rr.reverse ++ ['\n'] = w ∧ b2 = b ∧ cw2 = cw ∧ r2 = r := by simpa using h
        subst hc hw hb hcw hr
        exact ⟨[], rr, rfl, rfl, by simpa using h2⟩
    · rw [if_neg hc] at h
      obtain ⟨u1, u2, hu, hw, hf⟩ := ih h
      refine ⟨c :: u1, u2, by rw [hu]; simp, hw, ?_⟩
      have e : ((c :: u1).reverse ++ gb) ++ rest = (u1.reverse ++ c :: gb) ++ rest := by
        simp
      rw [e]
      exact hf

/-- Structure of a successful array-pattern match. -/
theorem tryMatchC_decomp {label s : List Char} {m : CMatch}
    (h : tryMatchC label s = some m) :
    s = m.g1 ++ m.wsnl ++ m.body ++ '\n' :: m.cw ++ ']' :: m.rest ∧
    (∃ w1 w2, m.g1 = label ++ w1 ++ '=' :: w2 ++ ['['] ∧
      (∀ x ∈ w1, pyWs x = true) ∧ (∀ x ∈ w2, pyWs x = true)) ∧
    (∀ x ∈ m.wsnl, pyWs x = true) ∧ (∃ w0, m.wsnl = w0 ++ ['\n']) ∧
    (∀ x ∈ m.cw, pyWs x = true) := by
  unfold tryMatchC at h
  rcases h1 : openerParse label s with _ | ⟨g1, r3⟩
  · rw [h1] at h; exact absurd h (by simp)
  rw [h1] at h; dsimp only at h
  rcases h2 : candLoop (r3.takeWhile pyWs) (r3.dropWhile pyWs) with _ | ⟨w, b, cw, r⟩
  · rw [h2] at h; exact absurd h (by simp)
  rw [h2] at h
  obtain rfl : CMatch.mk g1 w b cw r = m := by simpa using h
  obtain ⟨w1, w2, hg1, hs, hw1, hw2⟩ := openerParse_some h1
  obtain ⟨u1, u2, hu, hw, hf⟩ := candLoopR_some h2
  obtain ⟨hfc, hcw⟩ := findClose_decomp hf
  have hrun : r3.takeWhile pyWs = u2.reverse ++ '\n' :: u1.reverse := by
    have := congrArg List.reverse hu
    simpa using this
  have hr3 : r3 = u2.reverse ++ '\n' :: u1.reverse ++ (r3.dropWhile pyWs) := by
    conv_lhs => rw [(List.takeWhile_append_dropWhile pyWs r3).symm]
    rw [hrun]
    try simp
  refine ⟨?_, ⟨w1, w2, hg1, hw1, hw2⟩, ?_, ⟨u2.reverse, hw⟩, hcw⟩
  · rw [hs, hr3]
    dsimp only
    rw [hw]
    have e2 : u1.reverse ++ r3.dropWhile pyWs = b ++ '\n' :: cw ++ ']' :: r := by
      have := hfc
      simpa using this
    simp only [List.append_assoc, List.cons_append] at e2 ⊢
    rw [e2]
    simp
  · intro x hx
    dsimp only at hx
    rw [hw] at hx
    simp at hx
    rcases hx with hx | hx
    · have hx2 : x ∈ r3.takeWhile pyWs := by
        rw [hrun]
        simp [hx]
      exact List.mem_takeWhile_imp hx2
    · simp [hx, pyWs]

theorem tryMatchC_len {label s : List Char} {m : CMatch}
    (h : tryMatchC label s = some m) : m.rest.length < s.length := by
  obtain ⟨hs, _⟩ := tryMatchC_decomp h
  rw [hs]
  simp [List.length_append]
  omega

/-! ## The array-pattern scan: step equations and leftmost-match form -/

theorem subCGo_step_none {label D : List Char} {c : Char} {cs : List Char} {f : Nat}
    (h : tryMatchC label (c :: cs) = none) :
    subCGo label D (f + 1) (c :: cs) = c :: subCGo label D f cs := by
  conv_lhs => rw [subCGo]
  rw [h]

theorem subCGo_step_some {label D : List Char} {c : Char} {cs : List Char} {m : CMatch}
    {f : Nat} (h : tryMatchC label (c :: cs) = some m) :
    subCGo label D (f + 1) (c :: cs) = replC m.g1 D ++ subCGo label D f m.rest := by
  conv_lhs => rw [subCGo]
  rw [h]

theorem subCGo_nil (label D : List Char) (f : Nat) : subCGo label D f [] = [] := by
  cases f <;> rfl

theorem subCGo_fuel (label D : List Char) : ∀ (n : Nat) (s : List Char), s.length ≤ n →
    subCGo label D n s = subCGo label D s.length s := by
  intro n
  induction n using Nat.strong_induction_on with
  | _ n ih =>
    intro s hs
    cases s with
    | nil => exact (subCGo_nil _ _ _).trans (subCGo_nil _ _ _).symm
    | cons c cs =>
      cases n with
      | zero => simp at hs
      | succ k =>
        have hk : cs.length ≤ k := by simpa using hs
        rcases hm : tryMatchC label (c :: cs) with _ | m
        · rw [subCGo_step_none hm, show (c :: cs).length = cs.length + 1 from rfl,
            subCGo_step_none hm]
          congr 1
          exact ih k (Nat.lt_succ_self k) cs hk
        · have hlt := tryMatchC_len hm
          have hml : m.rest.length ≤ cs.length := by
            have : (c :: cs).length = cs.length + 1 := rfl
            omega
          rw [subCGo_step_some hm, show (c :: cs).length = cs.length + 1 from rfl,
            subCGo_step_some hm]
          congr 1
          rw [ih k (Nat.lt_succ_self k) m.rest (by omega),
            ih cs.length (by omega) m.rest hml]


theorem findM_none {label : List Char} : ∀ {s : List Char}, findM label s = none →
    ∀ a b, s = a ++ b → b ≠ [] → tryMatchC label b = none := by
  intro s
  induction s with
  | nil =>
    intro _ a b hab hb
    exact absurd (List.append_eq_nil.mp hab.symm).2 hb
  | cons c cs ih =>
    intro h a b hab hb
    rcases hm : tryMatchC label (c :: cs) with _ | m
    · rw [findM, hm] at h
      cases a with
      | nil =>
        obtain rfl : c :: cs = b := by simpa using hab
        exact hm
      | cons a0 a2 =>
        obtain ⟨rfl, hcs⟩ : a0 = c ∧ cs = a2 ++ b := by
          have := hab
          simp at this
          exact ⟨this.1.symm, this.2⟩
        exact ih (by simpa using h) a2 b hcs hb
    · rw [findM, hm] at h
      exact absurd h (by simp)

theorem findM_some {label : List Char} : ∀ {s : List Char} {pre : List Char} {m : CMatch},
    findM label s = some (pre, m) →
    ∃ mfull, s = pre ++ mfull ∧ tryMatchC label mfull = some m ∧
      ∀ a b, pre = a ++ b → b ≠ [] → tryMatchC label (b ++ mfull) = none := by
  intro s
  induction s with
  | nil => intro pre m h; simp [findM] at h
  | cons c cs ih =>
    intro pre m h
    rcases hm : tryMatchC label (c :: cs) with _ | m0
    · rw [findM, hm] at h
      rcases h2 : findM label cs with _ | ⟨pre2, m2⟩
      · rw [h2] at h; exact absurd h (by simp)
      rw [h2] at h
      obtain ⟨hpre, hm2⟩ : c :: pre2 = pre ∧ m2 = m := by simpa using h
      subst hpre
      subst hm2
      obtain ⟨mfull, hs, hmf, hpref⟩ := ih h2
      refine ⟨mfull, by rw [hs]; simp, hmf, ?_⟩
      intro a b hab hb
      cases a with
      | nil =>
        obtain rfl : c :: pre2 = b := by simpa using hab
        have hbm : (c :: pre2) ++ mfull = c :: cs := by rw [hs]; simp
        rw [hbm]
        exact hm
      | cons a0 a2 =>
        obtain ⟨rfl, hpre2⟩ : a0 = c ∧ pre2 = a2 ++ b := by
          have := hab
          simp at this
          exact ⟨this.1.symm, this.2⟩
        exact hpref a2 b hpre2 hb
    · rw [findM, hm] at h
      obtain ⟨hpre, hm0⟩ : ([] : List Char) = pre ∧ m0 = m := by simpa using h
      subst hpre
      subst hm0
      refine ⟨c :: cs, rfl, hm, ?_⟩
      intro a b hab hb
      exact absurd (List.append_eq_nil.mp hab.symm).2 hb

theorem subC_findM_none {label D : List Char} : ∀ {s : List Char},
    findM label s = none → subAllC label D s = s := by
  intro s
  induction s with
  | nil => intro _; exact subCGo_nil _ _ _
  | cons c cs ih =>
    intro h
    rcases hm : tryMatchC label (c :: cs) with _ | m
    · have h2 : findM label cs = none := by
        rw [findM, hm] at h
        simpa using h
      show subCGo label D (cs.length + 1) (c :: cs) = c :: cs
      rw [subCGo_step_none hm]
      rw [show subCGo label D cs.length cs = subAllC label D cs from rfl, ih h2]
    · rw [findM, hm] at h
      exact absurd h (by simp)

theorem subC_findM_some {label D : List Char} : ∀ {s pre : List Char} {m : CMatch},
    findM label s = some (pre, m) →
    subAllC label D s = pre ++ (replC m.g1 D ++ subAllC label D m.rest) := by
  intro s
  induction s with
  | nil => intro pre m h; simp [findM] at h
  | cons c cs ih =>
    intro pre m h
    rcases hm : tryMatchC label (c :: cs) with _ | m0
    · rw [findM, hm] at h
      rcases h2 : findM label cs with _ | ⟨pre2, m2⟩
      · rw [h2] at h; exact absurd h (by simp)
      rw [h2] at h
      obtain ⟨hpre, hm2⟩ : c :: pre2 = pre ∧ m2 = m := by simpa using h
      subst hpre
      subst hm2
      show subCGo label D (cs.length + 1) (c :: cs) = _
      rw [subCGo_step_none hm]
      rw [show subCGo label D cs.length cs = subAllC label D cs from rfl, ih h2]
      simp
    · rw [findM, hm] at h
      obtain ⟨hpre, hm0⟩ : ([] : List Char) = pre ∧ m0 = m := by simpa using h
      subst hpre
      subst hm0
      show subCGo label D (cs.length + 1) (c :: cs) = _
      rw [subCGo_step_some hm]
      have hml : m0.rest.length ≤ cs.length := by
        have h3 := tryMatchC_len hm
        have h2 : (c :: cs).length = cs.length + 1 := rfl
        omega
      rw [subCGo_fuel label D cs.length m0.rest hml]
      simp
      rfl

/-! ## Frame decomposition: the document as alternating unmatched segments and matches -/


theorem altJoin_single (f : CMatch → List Char) (s : List Char) : altJoin f [s] [] = s := rfl

theorem altJoin_cons (f : CMatch → List Char) (s : List Char) (ss : List (List Char))
    (m : CMatch) (ms : List CMatch) :
    altJoin f (s :: ss) (m :: ms) = s ++ (f m ++ altJoin f ss ms) := by
  cases ss <;> rfl

theorem subAllC_decomp (label D : List Char) : ∀ (n : Nat) (s : List Char), s.length ≤ n →
    ∃ (segs : List (List Char)) (ms : List CMatch),
      segs.length = ms.length + 1 ∧
      s = altJoin matchedText segs ms ∧
      subAllC label D s = altJoin (replText D) segs ms := by
  intro n
  induction n using Nat.strong_induction_on with
  | _ n ih =>
    intro s hs
    rcases hf : findM label s with _ | ⟨pre, m⟩
    · exact ⟨[s], [], rfl, rfl, by rw [subC_findM_none hf, altJoin_single]⟩
    · obtain ⟨mfull, hsplit, hmf, hpref⟩ := findM_some hf
      obtain ⟨hdec, _, _, _, _⟩ := tryMatchC_decomp hmf
      have hml : m.rest.length < s.length := by
        have h1 := tryMatchC_len hmf
        have h2 : s.length = pre.length + mfull.length := by rw [hsplit]; simp
        omega
      obtain ⟨segs, ms, hL, hS, hO⟩ :=
        ih m.rest.length (by omega) m.rest (le_refl _)
      refine ⟨pre :: segs, m :: ms, by simp [hL], ?_, ?_⟩
      · rw [altJoin_cons, ← hS, hsplit, hdec]
        simp [matchedText]
      · rw [altJoin_cons, ← hO, subC_findM_some hf]
        rfl

theorem subCGoF_step_none {label : List Char} {f : CMatch → List Char} {c : Char}
    {cs : List Char} {n : Nat} (h : tryMatchC label (c :: cs) = none) :
    subCGoF label f (n + 1) (c :: cs) = c :: subCGoF label f n cs := by
  conv_lhs => rw [subCGoF]
  rw [h]

theorem subCGoF_step_some {label : List Char} {f : CMatch → List Char} {c : Char}
    {cs : List Char} {m : CMatch} {n : Nat} (h : tryMatchC label (c :: cs) = some m) :
    subCGoF label f (n + 1) (c :: cs) = f m ++ subCGoF label f n m.rest := by
  conv_lhs => rw [subCGoF]
  rw [h]

theorem subCGoF_nil (label : List Char) (f : CMatch → List Char) (n : Nat) :
    subCGoF label f n [] = [] := by
  cases n <;> rfl

theorem subCGoF_fuel (label : List Char) (f : CMatch → List Char) :
    ∀ (n : Nat) (s : List Char), s.length ≤ n →
    subCGoF label f n s = subCGoF label f s.length s := by
  intro n
  induction n using Nat.strong_induction_on with
  | _ n ih =>
    intro s hs
    cases s with
    | nil => exact (subCGoF_nil _ _ _).trans (subCGoF_nil _ _ _).symm
    | cons c cs =>
      cases n with
      | zero => simp at hs
      | succ k =>
        have hk : cs.length ≤ k := by simpa using hs
        rcases hm : tryMatchC label (c :: cs) with _ | m
        · rw [subCGoF_step_none hm, show (c :: cs).length = cs.length + 1 from rfl,
            subCGoF_step_none hm]
          congr 1
          exact ih k (Nat.lt_succ_self k) cs hk
        · have hlt := tryMatchC_len hm
          have hml : m.rest.length ≤ cs.length := by
            have : (c :: cs).length = cs.length + 1 := rfl
            omega
          rw [subCGoF_step_some hm, show (c :: cs).length = cs.length + 1 from rfl,
            subCGoF_step_some hm]
          congr 1
          rw [ih k (Nat.lt_succ_self k) m.rest (by omega),
            ih cs.length (by omega) m.rest hml]

theorem subCF_findM_none {label : List Char} (f : CMatch → List Char) : ∀ {s : List Char},
    findM label s = none → subCGoF label f s.length s = s := by
  intro s
  induction s with
  | nil => intro _; exact subCGoF_nil _ _ _
  | cons c cs ih =>
    intro h
    rcases hm : tryMatchC label (c :: cs) with _ | m
    · have h2 : findM label cs = none := by
        rw [findM, hm] at h
        simpa using h
      show subCGoF label f (cs.length + 1) (c :: cs) = c :: cs
      rw [subCGoF_step_none hm, ih h2]
    · rw [findM, hm] at h
      exact absurd h (by simp)

theorem subCF_findM_some {label : List Char} (f : CMatch → List Char) :
    ∀ {s pre : List Char} {m : CMatch}, findM label s = some (pre, m) →
    subCGoF label f s.length s = pre ++ (f m ++ subCGoF label f m.rest.length m.rest) := by
  intro s
  induction s with
  | nil => intro pre m h; simp [findM] at h
  | cons c cs ih =>
    intro pre m h
    rcases hm : tryMatchC label (c :: cs) with _ | m0
    · rw [findM, hm] at h
      rcases h2 : findM label cs with _ | ⟨pre2, m2⟩
      · rw [h2] at h; exact absurd h (by simp)
      rw [h2] at h
      obtain ⟨hpre, hm2⟩ : c :: pre2 = pre ∧ m2 = m := by simpa using h
      subst hpre
      subst hm2
      show subCGoF label f (cs.length + 1) (c :: cs) = _
      rw [subCGoF_step_none hm, ih h2]
      simp
    · rw [findM, hm] at h
      obtain ⟨hpre, hm0⟩ : ([] : List Char) = pre ∧ m0 = m := by simpa using h
      subst hpre
      subst hm0
      show subCGoF label f (cs.length + 1) (c :: cs) = _
      rw [subCGoF_step_some hm]
      have hml : m0.rest.length ≤ cs.length := by
        have h3 := tryMatchC_len hm
        have h2 : (c :: cs).length = cs.length + 1 := rfl
        omega
      rw [subCGoF_fuel label f cs.length m0.rest hml]
      simp

theorem subCGoF_decomp (label : List Char) (f : CMatch → List Char) :
    ∀ (n : Nat) (s : List Char), s.length ≤ n →
    ∃ (segs : List (List Char)) (ms : List CMatch),
      segs.length = ms.length + 1 ∧
      s = altJoin matchedText segs ms ∧
      subCGoF label f s.length s = altJoin f segs ms := by
  intro n
  induction n using Nat.strong_induction_on with
  | _ n ih =>
    intro s hs
    rcases hf : findM label s with _ | ⟨pre, m⟩
    · exact ⟨[s], [], rfl, rfl, by rw [subCF_findM_none f hf, altJoin_single]⟩
    · obtain ⟨mfull, hsplit, hmf, hpref⟩ := findM_some hf
      obtain ⟨hdec, _, _, _, _⟩ := tryMatchC_decomp hmf
      have hml : m.rest.length < s.length := by
        have h1 := tryMatchC_len hmf
        have h2 : s.length = pre.length + mfull.length := by rw [hsplit]; simp
        omega
      obtain ⟨segs, ms, hL, hS, hO⟩ :=
        ih m.rest.length (by omega) m.rest (le_refl _)
      refine ⟨pre :: segs, m :: ms, by simp [hL], ?_, ?_⟩
      · rw [altJoin_cons, ← hS, hsplit, hdec]
        simp [matchedText]
      · rw [altJoin_cons, ← hO, subCF_findM_some f hf]

theorem subCGoX_step_none {label : List Char} {items : List TItem} {c : Char}
    {cs : List Char} {n : Nat} (h : tryMatchC label (c :: cs) = none) :
    subCGoX label items (n + 1) (c :: cs) = c :: subCGoX label items n cs := by
  conv_lhs => rw [subCGoX]
  rw [h]

theorem subCGoX_step_some {label : List Char} {items : List TItem} {c : Char}
    {cs : List Char} {m : CMatch} {n : Nat} (h : tryMatchC label (c :: cs) = some m) :
    subCGoX label items (n + 1) (c :: cs) =
      expandT (groupsC m) items ++ subCGoX label items n m.rest := by
  conv_lhs => rw [subCGoX]
  rw [h]

theorem subCGoX_as_F (label : List Char) (items : List TItem) :
    ∀ (n : Nat) (s : List Char),
    subCGoX label items n s = subCGoF label (fun m => expandT (groupsC m) items) n s := by
  intro n
  induction n with
  | zero => intro s; rfl
  | succ k ih =>
    intro s
    cases s with
    | nil => rfl
    | cons c cs =>
      rcases hm : tryMatchC label (c :: cs) with _ | m
      · rw [subCGoX_step_none hm, subCGoF_step_none hm, ih]
      · rw [subCGoX_step_some hm, subCGoF_step_some hm, ih]

/-- C8: for every configuration document, an array-substitution pass alters no
text outside the matched array regions: the document splits into alternating
unmatched segments and matched regions, and the output is the same segments
with only the matched regions rewritten, so every character outside the matched
regions is preserved byte-for-byte.  This holds for the literal-insertion
replacement (subAllC, exact for backslash-free formatted entries) and equally
for re.sub's template expansion, whatever items the replacement template
parses to (subCGoX expands the template against each match in place).
sync_to_pyproject is the composition of two such passes, one per label. -/
theorem c8_substitution_frame :
    (∀ (label D s : List Char),
      ∃ (segs : List (List Char)) (ms : List CMatch),
        segs.length = ms.length + 1 ∧
        s = altJoin matchedText segs ms ∧
        subAllC label D s = altJoin (replText D) segs ms) ∧
    (∀ (label s : List Char) (items : List TItem),
      ∃ (segs : List (List Char)) (ms : List CMatch),
        segs.length = ms.length + 1 ∧
        s = altJoin matchedText segs ms ∧
        subCGoX label items s.length s =
          altJoin (fun m => expandT (groupsC m) items) segs ms) := by
  constructor
  · intro label D s
    exact subAllC_decomp label D s.length s (le_refl _)
  · intro label s items
    obtain ⟨segs, ms, h1, h2, h3⟩ :=
      subCGoF_decomp label (fun m => expandT (groupsC m) items) s.length s (le_refl _)
    exact ⟨segs, ms, h1, h2, by rw [subCGoX_as_F]; exact h3⟩

/-- C2 amended: re.sub with no count argument replaces every non-overlapping
match: when the document contains a second match after the first, the scan
continues after the first replacement and rewrites the second occurrence too. -/
theorem c2_amended_every_occurrence_rewritten (label D s pre1 : List Char)
    (m1 : CMatch) (pre2 : List Char) (m2 : CMatch)
    (h1 : findM label s = some (pre1, m1))
    (h2 : findM label m1.rest = some (pre2, m2)) :
    subAllC label D s =
      pre1 ++ (replC m1.g1 D ++ (pre2 ++ (replC m2.g1 D ++ subAllC label D m2.rest))) := by
  rw [subC_findM_some h1, subC_findM_some h2]

theorem c2_amended_every_occurrence_rewritten_witness :
    subAllC labelDeps "    \x22new==2\x22,".data
        "dependencies = [\n    \x22a\x22,\n]\nmid\ndependencies = [\n    \x22b\x22,\n]\n".data =
      [] ++ (replC "dependencies = [".data "    \x22new==2\x22,".data ++
        ("\nmid\n".data ++ (replC "dependencies = [".data "    \x22new==2\x22,".data ++
          subAllC labelDeps "    \x22new==2\x22,".data "\n".data))) :=
  c2_amended_every_occurrence_rewritten labelDeps "    \x22new==2\x22,".data
    "dependencies = [\n    \x22a\x22,\n]\nmid\ndependencies = [\n    \x22b\x22,\n]\n".data
    []
    ⟨"dependencies = [".data, ['\n'], "    \x22a\x22,".data, [],
      "\nmid\ndependencies = [\n    \x22b\x22,\n]\n".data⟩
    "\nmid\n".data
    ⟨"dependencies = [".data, ['\n'], "    \x22b\x22,".data, [], "\n".data⟩
    (by decide) (by decide)

/-! ## Position-failure transfer: helper lemmas -/

theorem mem_takeWhile_mem {p : Char → Bool} : ∀ {l : List Char} {x : Char},
    x ∈ l.takeWhile p → x ∈ l := by
  intro l
  induction l with
  | nil => intro x hx; simp [List.takeWhile] at hx
  | cons a as ih =>
    intro x hx
    rw [List.takeWhile_cons] at hx
    by_cases ha : p a = true
    · rw [if_pos ha] at hx
      rcases List.mem_cons.mp hx with h | h
      · simp [h]
      · exact List.mem_cons_of_mem a (ih h)
    · rw [if_neg ha] at hx
      simp at hx

theorem dropWhile_ne_nil_of_mem {p : Char → Bool} : ∀ {l : List Char} {c : Char},
    c ∈ l → p c = false → l.dropWhile p ≠ [] := by
  intro l
  induction l with
  | nil => intro c hc _; simp at hc
  | cons a as ih =>
    intro c hc hpc
    rw [List.dropWhile_cons]
    by_cases ha : p a = true
    · rw [if_pos ha]
      rcases List.mem_cons.mp hc with h | h
      · subst h; rw [hpc] at ha; exact absurd ha (by simp)
      · exact ih h hpc
    · rw [if_neg ha]
      simp

theorem glast_app {y : List Char} (hy : y ≠ []) : ∀ (z : List Char),
    (z ++ y).getLast? = y.getLast? := by
  intro z
  induction z with
  | nil => rfl
  | cons a z ih =>
    rcases hz : z ++ y with _ | ⟨b, t⟩
    · exact absurd (List.append_eq_nil.mp hz).2 hy
    · have e1 : (a :: z) ++ y = a :: b :: t := by rw [List.cons_append, hz]
      rw [e1, List.getLast?_cons_cons, ← hz, ih]

theorem mem_of_glast : ∀ {l : List Char} {c : Char}, l.getLast? = some c → c ∈ l := by
  intro l
  induction l with
  | nil => intro c h; simp at h
  | cons a t ih =>
    intro c h
    cases t with
    | nil => simp at h; simp [h]
    | cons b t2 =>
      rw [List.getLast?_cons_cons] at h
      exact List.mem_cons_of_mem a (ih h)

theorem findClose_exists {w : List Char} (hw : ∀ x ∈ w, pyWs x = true) (v : List Char) :
    ∀ (a : List Char), ∃ t, findClose (a ++ '\n' :: (w ++ ']' :: v)) = some t := by
  intro a
  induction a with
  | nil =>
    have e := takeWhile_app_stop hw (by decide : pyWs ']' = false) v
    refine ⟨([], (w ++ ']' :: v).takeWhile pyWs, v), ?_⟩
    rw [List.nil_append, findClose, if_pos rfl, e.2]
    dsimp only
    rw [if_pos rfl]
  | cons c a' ih =>
    obtain ⟨t, ht⟩ := ih
    rw [List.cons_append, findClose]
    by_cases hc : c = '\n'
    · rw [if_pos hc]
      rcases hd : (a' ++ '\n' :: (w ++ ']' :: v)).dropWhile pyWs with _ | ⟨q, r⟩
      · dsimp only
        rw [ht]
        exact ⟨_, rfl⟩
      · dsimp only
        by_cases hq : q = ']'
        · rw [if_pos hq]
          exact ⟨_, rfl⟩
        · rw [if_neg hq]
          rw [ht]
          exact ⟨_, rfl⟩
    · rw [if_neg hc]
      rw [ht]
      exact ⟨_, rfl⟩

theorem noNL_candLoopR : ∀ {u : List Char}, '\n' ∉ u → ∀ (gb rest : List Char),
    candLoopR u gb rest = none := by
  intro u
  induction u with
  | nil => intro _ gb rest; rfl
  | cons c rr ih =>
    intro hu gb rest
    have hc : c ≠ '\n' := fun he => hu (by simp [he])
    have hrr : '\n' ∉ rr := fun he => hu (by simp [he])
    rw [candLoopR, if_neg hc]
    exact ih hrr _ _

theorem candLoopR_eq_none : ∀ {u gb rest : List Char}, candLoopR u gb rest = none →
    ∀ u1 u2, u = u1 ++ '\n' :: u2 → findClose ((u1.reverse ++ gb) ++ rest) = none := by
  intro u
  induction u with
  | nil =>
    intro gb rest _ u1 u2 hu
    exact absurd hu (by simp)
  | cons c rr ih =>
    intro gb rest h u1 u2 hu
    by_cases hc : c = '\n'
    · rw [candLoopR, if_pos hc] at h
      rcases h2 : findClose (gb ++ rest) with _ | t
      · rw [h2] at h
        cases u1 with
        | nil =>
          simpa using h2
        | cons a u1' =>
          obtain ⟨rfl, hrr⟩ : a = c ∧ rr = u1' ++ '\n' :: u2 := by
            have := hu; simp at this; exact ⟨this.1.symm, this.2⟩
          have e : (u1'.reverse ++ ('\n' :: gb)) ++ rest =
              (((a :: u1').reverse) ++ gb) ++ rest := by
            subst hc; simp
          rw [← e]
          exact ih h u1' u2 hrr
      · rw [h2] at h
        exact absurd h (by simp)
    · rw [candLoopR, if_neg hc] at h
      cases u1 with
      | nil =>
        obtain ⟨h1, _⟩ : c = '\n' ∧ rr = u2 := by simpa using hu
        exact absurd h1 hc
      | cons a u1' =>
        obtain ⟨rfl, hrr⟩ : a = c ∧ rr = u1' ++ '\n' :: u2 := by
          have := hu; simp at this; exact ⟨this.1.symm, this.2⟩
        have e : (u1'.reverse ++ (a :: gb)) ++ rest =
            (((a :: u1').reverse) ++ gb) ++ rest := by simp
        rw [← e]
        exact ih h u1' u2 hrr

theorem tryMatchC_nil {label : List Char} {h0 : Char} {lt : List Char}
    (hl : label = h0 :: lt) : tryMatchC label [] = none := by
  subst hl
  simp [tryMatchC, openerParse, eatLit]

theorem headMismatch {label : List Char} {h0 : Char} {lt : List Char} {c : Char}
    (hl : label = h0 :: lt) (hc : c ≠ h0) (rest : List Char) :
    tryMatchC label (c :: rest) = none := by
  subst hl
  simp [tryMatchC, openerParse, eatLit, hc]

theorem openerParse_confined {label x : List Char} {q : Char}
    (hq : q ∉ label) (hq2 : q ≠ '=') (hqws : pyWs q = false)
    (hx : x.getLast? = some q) :
    (∀ y, openerParse label (x ++ y) = none) ∨
    (∃ G s2, x = G ++ s2 ∧ s2 ≠ [] ∧ s2.getLast? = some q ∧
      ∀ y, openerParse label (x ++ y) = some (G, s2 ++ y)) ∨
    (∃ W1 W2, (∀ a ∈ W1, pyWs a = true) ∧ (∀ a ∈ W2, pyWs a = true) ∧
      x = label ++ W1 ++ '=' :: W2 ++ ['['] ∧
      ∀ y, openerParse label (x ++ y) = some (label ++ W1 ++ '=' :: W2 ++ ['['], y)) := by
  rcases h1 : eatLit label x with _ | r1
  · left
    intro y
    rcases eatLit_none_cases h1 with h2 | ⟨l2, hne, hl, _⟩
    · unfold openerParse
      rw [h2 y]
    · exfalso
      exact hq (by rw [hl]; exact List.mem_append_left _ (mem_of_glast hx))
  · have hx1 : x = label ++ r1 := eatLit_some h1
    have hr1ne : r1 ≠ [] := by
      intro he
      apply hq
      have hqx : q ∈ x := mem_of_glast hx
      rw [hx1, he] at hqx
      simpa using hqx
    have hgl1 : r1.getLast? = some q := by
      rw [hx1, glast_app hr1ne] at hx
      exact hx
    have hdw1 : r1.dropWhile pyWs ≠ [] :=
      dropWhile_ne_nil_of_mem (mem_of_glast hgl1) hqws
    rcases h2 : eatWsThen '=' r1 with _ | ⟨W1, r2⟩
    · left
      intro y
      unfold openerParse
      rw [eatLit_append_some h1 y]
      dsimp only
      rw [eatWsThen_none_blocked h2 hdw1 y]
    · obtain ⟨hr1eq, hW1, _⟩ := eatWsThen_some h2
      have hr2ne : r2 ≠ [] := by
        intro he
        apply hq2
        have e : r1.getLast? = some '=' := by
          rw [hr1eq, he]
          have e2 : W1 ++ '=' :: ([] : List Char) = W1 ++ ['='] := rfl
          rw [e2, glast_app (by simp : (['='] : List Char) ≠ [])]
          rfl
        rw [hgl1] at e
        exact Option.some.inj e
      have hgl2 : r2.getLast? = some q := by
        have e : r1.getLast? = r2.getLast? := by
          rw [hr1eq]
          have e2 : W1 ++ '=' :: r2 = (W1 ++ ['=']) ++ r2 := by simp
          rw [e2, glast_app hr2ne]
        rw [← e]
        exact hgl1
      have hdw2 : r2.dropWhile pyWs ≠ [] :=
        dropWhile_ne_nil_of_mem (mem_of_glast hgl2) hqws
      rcases h3 : eatWsThen '[' r2 with _ | ⟨W2, r3⟩
      · left
        intro y
        unfold openerParse
        rw [eatLit_append_some h1 y]
        dsimp only
        rw [eatWsThen_append_some h2 y]
        dsimp only
        rw [eatWsThen_none_blocked h3 hdw2 y]
      · obtain ⟨hr2eq, hW2, _⟩ := eatWsThen_some h3
        by_cases hr3 : r3 = []
        · right; right
          subst hr3
          refine ⟨W1, W2, hW1, hW2, by rw [hx1, hr1eq, hr2eq]; simp, ?_⟩
          intro y
          unfold openerParse
          rw [eatLit_append_some h1 y]
          dsimp only
          rw [eatWsThen_append_some h2 y]
          dsimp only
          rw [eatWsThen_append_some h3 y]
          simp
        · right; left
          have hgl3 : r3.getLast? = some q := by
            have e : r2 = (W2 ++ ['[']) ++ r3 := by rw [hr2eq]; simp
            rw [e, glast_app hr3] at hgl2
            exact hgl2
          refine ⟨label ++ W1 ++ '=' :: W2 ++ ['['], r3,
            by rw [hx1, hr1eq, hr2eq]; simp, hr3, hgl3, ?_⟩
          intro y
          unfold openerParse
          rw [eatLit_append_some h1 y]
          dsimp only
          rw [eatWsThen_append_some h2 y]
          dsimp only
          rw [eatWsThen_append_some h3 y]

theorem no_flush {label label2 b g1 w1 w2 W1 W2 : List Char}
    (hb : b ≠ []) (hl2ne : label2 ≠ [])
    (hl2c : ∀ c ∈ label2, pyWs c = false ∧ c ≠ '=' ∧ c ≠ '[')
    (hg1 : g1 = label2 ++ w1 ++ '=' :: w2 ++ ['['])
    (hsub : ∀ b2 k, b2 ≠ [] → label ≠ b2 ++ (label2 ++ k))
    (hW1 : ∀ a ∈ W1, pyWs a = true) (hW2 : ∀ a ∈ W2, pyWs a = true)
    (heq : b ++ g1 = label ++ W1 ++ '=' :: W2 ++ ['[']) : False := by
  have heq2 : (b ++ label2) ++ (w1 ++ '=' :: w2 ++ ['[']) =
      label ++ (W1 ++ '=' :: W2 ++ ['[']) := by
    have h := heq
    rw [hg1] at h
    calc (b ++ label2) ++ (w1 ++ '=' :: w2 ++ ['['])
        = b ++ (label2 ++ w1 ++ '=' :: w2 ++ ['[']) := by simp
      _ = label ++ W1 ++ '=' :: W2 ++ ['['] := h
      _ = label ++ (W1 ++ '=' :: W2 ++ ['[']) := by simp
  rcases List.append_eq_append_iff.mp heq2 with ⟨a2, ha2, _⟩ | ⟨c2, hc2, hR⟩
  · exact hsub b a2 hb (by rw [ha2]; simp)
  · by_cases hc2e : c2 = []
    · subst hc2e
      exact hsub b [] hb (by simpa using hc2.symm)
    · have hql : label2.getLast? = some (label2.getLast (by exact hl2ne)) :=
        List.getLast?_eq_getLast _ _
      have hlast : c2.getLast? = label2.getLast? := by
        rw [← glast_app hc2e label, ← hc2, glast_app hl2ne]
      have hmem2 : ∀ a, c2.getLast? = some a → a ∈ label2 := by
        intro a ha
        rw [hlast] at ha
        exact mem_of_glast ha
      rcases hgl : c2.getLast? with _ | a
      · rcases c2 with _ | ⟨x, xs⟩
        · exact hc2e rfl
        · rw [List.getLast?_eq_getLast _ (by simp)] at hgl
          exact absurd hgl (by simp)
      · have ha2 : a ∈ label2 := hmem2 a hgl
        have haR : a ∈ W1 ++ '=' :: W2 ++ ['['] := by
          have : a ∈ c2 := mem_of_glast hgl
          rw [hR]
          exact List.mem_append_left _ this
        obtain ⟨haws, hae, habr⟩ := hl2c a ha2
        simp at haR
        rcases haR with h | h | h | h
        · rw [hW1 a h] at haws; exact absurd haws (by simp)
        · exact hae h
        · rw [hW2 a h] at haws; exact absurd haws (by simp)
        · exact habr h

theorem tryMatchC_transfer {label label2 b g1 w1 w2 u w v : List Char}
    (hb : b ≠ []) (hl2ne : label2 ≠ [])
    (hlbr : '[' ∉ label)
    (hl2c : ∀ c ∈ label2, pyWs c = false ∧ c ≠ '=' ∧ c ≠ '[')
    (hsub : ∀ b2 k, b2 ≠ [] → label ≠ b2 ++ (label2 ++ k))
    (hg1 : g1 = label2 ++ w1 ++ '=' :: w2 ++ ['['])
    (hw : ∀ x ∈ w, pyWs x = true)
    (hnone : tryMatchC label ((b ++ g1) ++ (u ++ '\n' :: (w ++ ']' :: v))) = none)
    (T2 : List Char) :
    tryMatchC label ((b ++ g1) ++ T2) = none := by
  have hx : (b ++ g1).getLast? = some '[' := by
    rw [hg1]
    have e : b ++ (label2 ++ w1 ++ '=' :: w2 ++ ['[']) =
        (b ++ (label2 ++ w1 ++ '=' :: w2)) ++ ['['] := by simp
    rw [e, glast_app (by simp)]
    rfl
  rcases openerParse_confined hlbr (by decide) (by decide) hx with
    h | ⟨G, s2, hxGs, hs2ne, hs2gl, hsome⟩ | ⟨W1, W2, hW1, hW2, hxform, _⟩
  · unfold tryMatchC
    rw [h T2]
  · have hdw : s2.dropWhile pyWs ≠ [] :=
      dropWhile_ne_nil_of_mem (mem_of_glast hs2gl) (by decide)
    rcases hdd : s2.dropWhile pyWs with _ | ⟨d, ds⟩
    · exact absurd hdd hdw
    have hdns : pyWs d = false := dropWhile_head_false hdd
    have htww : ∀ a ∈ s2.takeWhile pyWs, pyWs a = true := fun a ha =>
      List.mem_takeWhile_imp ha
    have hs2eq : s2 = s2.takeWhile pyWs ++ d :: ds := by
      conv_lhs => rw [(List.takeWhile_append_dropWhile pyWs s2).symm]
      rw [hdd]
    have htwT : ∀ y : List Char, (s2 ++ y).takeWhile pyWs = s2.takeWhile pyWs ∧
        (s2 ++ y).dropWhile pyWs = d :: (ds ++ y) := by
      intro y
      have e : s2 ++ y = s2.takeWhile pyWs ++ d :: (ds ++ y) := by
        conv_lhs => rw [hs2eq]
        simp
      rw [e]
      exact takeWhile_app_stop htww hdns _
    by_cases hnl : '\n' ∈ s2.takeWhile pyWs
    · exfalso
      have hnone2 := hnone
      unfold tryMatchC at hnone2
      rw [hsome (u ++ '\n' :: (w ++ ']' :: v))] at hnone2
      dsimp only at hnone2
      rw [(htwT _).1, (htwT _).2, candLoop] at hnone2
      rcases h4 : candLoopR (s2.takeWhile pyWs).reverse []
          (d :: (ds ++ (u ++ '\n' :: (w ++ ']' :: v)))) with _ | t4
      · obtain ⟨u1, u2, hsplit⟩ : ∃ u1 u2,
            (s2.takeWhile pyWs).reverse = u1 ++ '\n' :: u2 := by
          have hm : '\n' ∈ (s2.takeWhile pyWs).reverse := by simpa using hnl
          exact List.append_of_mem hm
        have hfc := candLoopR_eq_none h4 u1 u2 hsplit
        obtain ⟨t, ht⟩ := findClose_exists hw v (u1.reverse ++ (d :: (ds ++ u)))
        have e : (u1.reverse ++ (d :: (ds ++ u))) ++ '\n' :: (w ++ ']' :: v) =
            (u1.reverse ++ []) ++ (d :: (ds ++ (u ++ '\n' :: (w ++ ']' :: v)))) := by
          simp
        rw [e, hfc] at ht
        exact absurd ht (by simp)
      · rw [h4] at hnone2
        exact absurd hnone2 (by simp)
    · unfold tryMatchC
      rw [hsome T2]
      dsimp only
      rw [(htwT T2).1, (htwT T2).2, candLoop]
      rw [noNL_candLoopR (by simpa using hnl) _ _]
  · exfalso
    exact no_flush hb hl2ne hl2c hg1 hsub hW1 hW2 hxform

/-! ## Structure of the formatted dependency block -/

set_option maxHeartbeats 2000000 in
theorem pySplitGo_step3 (acc : List Char) (c : Char) (r : List Char)
    (hno : ∀ (r2 : List Char), c = '\x0d' → r = '\n' :: r2 → False) :
    pySplitGo acc (c :: r) =
      if pyLineBreak c then acc.reverse :: pySplitGo [] r else pySplitGo (c :: acc) r := by
  rw [pySplitGo]
  exact hno

theorem pySplitGo_lines (acc r : List Char) :
    (∀ c ∈ acc, pyLineBreak c = false) →
    ∀ l ∈ pySplitGo acc r, ∀ c ∈ l, pyLineBreak c = false := by
  induction acc, r using pySplitGo.induct with
  | case1 =>
    intro _ l hl
    have he : pySplitGo [] [] = [] := rfl
    rw [he] at hl
    simp at hl
  | case2 acc hacc =>
    intro ha l hl c hc
    have he : pySplitGo acc [] = [acc.reverse] := by
      rw [show pySplitGo acc [] = if acc = [] then [] else [acc.reverse] from rfl, if_neg hacc]
    rw [he] at hl
    simp at hl
    subst hl
    exact ha c (by simpa using hc)
  | case3 acc r ih =>
    intro ha l hl c hc
    have he : pySplitGo acc ('\x0d' :: '\n' :: r) = acc.reverse :: pySplitGo [] r := rfl
    rw [he] at hl
    rcases List.mem_cons.mp hl with h | h
    · subst h
      exact ha c (by simpa using hc)
    · exact ih (by simp) l h c hc
  | case4 acc c0 r hno hlb ih =>
    intro ha l hl c hc
    rw [pySplitGo_step3 acc c0 r hno, if_pos hlb] at hl
    rcases List.mem_cons.mp hl with h | h
    · subst h
      exact ha c (by simpa using hc)
    · exact ih (by simp) l h c hc
  | case5 acc c0 r hno hlb ih =>
    intro ha l hl c hc
    rw [pySplitGo_step3 acc c0 r hno, if_neg hlb] at hl
    have ha2 : ∀ x ∈ (c0 :: acc), pyLineBreak x = false := by
      intro x hx
      rcases List.mem_cons.mp hx with h | h
      · subst h
        simpa using hlb
      · exact ha x h
    exact ih ha2 l hl c hc

theorem dropWhile_sub {p : Char → Bool} : ∀ {l : List Char} {c : Char},
    c ∈ l.dropWhile p → c ∈ l := by
  intro l
  induction l with
  | nil => intro c hc; simp [List.dropWhile] at hc
  | cons a as ih =>
    intro c hc
    rw [List.dropWhile_cons] at hc
    by_cases ha : p a = true
    · rw [if_pos ha] at hc
      exact List.mem_cons_of_mem a (ih hc)
    · rw [if_neg ha] at hc
      exact hc

theorem pyStrip_sub {l : List Char} {c : Char} (h : c ∈ pyStrip l) : c ∈ l := by
  unfold pyStrip at h
  rw [List.mem_reverse] at h
  have h2 := dropWhile_sub h
  rw [List.mem_reverse] at h2
  exact dropWhile_sub h2

theorem parse_requirements_nl_free (r : Option (List Char)) :
    ∀ d ∈ parse_requirements r, '\n' ∉ d := by
  intro d hd hnl
  cases r with
  | none => simp [parse_requirements] at hd
  | some txt =>
    rw [parse_requirements, parseLinesLoop_eq] at hd
    have h2 := List.mem_of_mem_filter hd
    obtain ⟨l, hl, hls⟩ := List.mem_map.mp h2
    have h3 : '\n' ∈ l := pyStrip_sub (by rw [hls]; exact hnl)
    have h4 := pySplitGo_lines [] txt (by simp) l hl '\n' h3
    exact absurd h4 (by decide)

theorem intercalate_eq_joinLines : ∀ (ls : List (List Char)),
    List.intercalate ['\n'] ls = joinLines ls := by
  intro ls
  induction ls with
  | nil => rfl
  | cons x xs ih =>
    cases xs with
    | nil => simp [List.intercalate, List.intersperse, joinLines]
    | cons y ys =>
      rw [joinLines_cons2, ← ih]
      simp [List.intercalate, List.intersperse]

theorem split_at_newline {J : List Char} : ∀ {F a b : List Char}, '\n' ∉ F →
    F ++ '\n' :: J = a ++ '\n' :: b →
    (a = F ∧ b = J) ∨ (∃ a2, a = F ++ '\n' :: a2 ∧ J = a2 ++ '\n' :: b) := by
  intro F
  induction F with
  | nil =>
    intro a b _ h
    cases a with
    | nil =>
      left
      have h2 : J = b := by simpa using h
      exact ⟨rfl, h2.symm⟩
    | cons x a2 =>
      right
      obtain ⟨hx, hJ⟩ : '\n' = x ∧ J = a2 ++ '\n' :: b := by simpa using h
      exact ⟨a2, by simp [← hx], hJ⟩
  | cons f F2 ih =>
    intro a b hF h
    have hf : f ≠ '\n' := fun he => hF (by simp [he])
    have hF2 : '\n' ∉ F2 := fun he => hF (by simp [he])
    cases a with
    | nil =>
      exfalso
      have : f = '\n' := by simpa using congrArg List.head? h
      exact hf this
    | cons x a2 =>
      obtain ⟨hx, h2⟩ : f = x ∧ F2 ++ '\n' :: J = a2 ++ '\n' :: b := by simpa using h
      rcases ih hF2 h2 with ⟨ha, hb⟩ | ⟨a3, ha, hJ⟩
      · left
        exact ⟨by rw [← hx, ha], hb⟩
      · right
        exact ⟨a3, by rw [← hx, ha]; rfl, hJ⟩

theorem formatDep_nl_free {d : List Char} (h : '\n' ∉ d) (indent : Nat) :
    '\n' ∉ formatDep indent d := by
  intro hm
  unfold formatDep at hm
  rcases List.mem_append.mp hm with hm | hm
  · exact absurd (List.eq_of_mem_replicate hm) (by decide)
  · rcases List.mem_cons.mp hm with hm | hm
    · exact absurd hm (by decide)
    · rcases List.mem_append.mp hm with hm | hm
      · exact h hm
      · rcases List.mem_cons.mp hm with hm | hm
        · exact absurd hm (by decide)
        · rcases List.mem_cons.mp hm with hm | hm
          · exact absurd hm (by decide)
          · simp at hm

theorem joinLines_fmt_split {indent : Nat} : ∀ (ds : List (List Char)),
    (∀ d ∈ ds, '\n' ∉ d) →
    ∀ a b, joinLines (ds.map (formatDep indent)) = a ++ '\n' :: b →
    ∃ c2, b = List.replicate indent ' ' ++ '"' :: c2 := by
  intro ds
  induction ds with
  | nil =>
    intro _ a b h
    exact absurd h (by simp [joinLines])
  | cons d ds2 ih =>
    intro hnl a b h
    have hF : '\n' ∉ formatDep indent d := formatDep_nl_free (hnl d (by simp)) indent
    cases ds2 with
    | nil =>
      exfalso
      have he : joinLines (List.map (formatDep indent) [d]) = formatDep indent d := rfl
      rw [he] at h
      exact hF (by rw [h]; simp)
    | cons d2 ds3 =>
      rw [List.map_cons, List.map_cons, joinLines_cons2] at h
      rcases split_at_newline hF h with ⟨_, hb⟩ | ⟨a2, _, hJ⟩
      · subst hb
        cases ds3 with
        | nil =>
          refine ⟨d2 ++ ['"', ','], ?_⟩
          have he : joinLines (formatDep indent d2 :: List.map (formatDep indent) []) =
              formatDep indent d2 := rfl
          rw [he]
          simp [formatDep]
        | cons d3 ds4 =>
          rw [List.map_cons, joinLines_cons2]
          exact ⟨(d2 ++ ['"', ',']) ++ '\n' ::
            joinLines (formatDep indent d3 :: List.map (formatDep indent) ds4),
            by simp [formatDep]⟩
      · exact ih (fun x hx => hnl x (by simp [hx])) a2 b hJ

theorem fmt_head {deps : List (List Char)} (h : deps ≠ []) (indent : Nat) :
    ∃ c2, format_dependencies deps indent = List.replicate indent ' ' ++ '"' :: c2 := by
  cases deps with
  | nil => exact absurd rfl h
  | cons d ds =>
    rw [format_dependencies, if_neg (by simp), intercalate_eq_joinLines, List.map_cons]
    cases ds with
    | nil => exact ⟨d ++ ['"', ','], by simp [joinLines, formatDep]⟩
    | cons d2 ds2 =>
      rw [List.map_cons, joinLines_cons2]
      exact ⟨(d ++ ['"', ',']) ++ '\n' ::
        joinLines (formatDep indent d2 :: List.map (formatDep indent) ds2),
        by simp [formatDep]⟩

theorem fmt_split {deps : List (List Char)} (hnl : ∀ d ∈ deps, '\n' ∉ d)
    (hne : deps ≠ []) (indent : Nat) :
    ∀ a b, format_dependencies deps indent = a ++ '\n' :: b →
    ∃ c2, b = List.replicate indent ' ' ++ '"' :: c2 := by
  intro a b h
  rw [format_dependencies, if_neg hne, intercalate_eq_joinLines] at h
  exact joinLines_fmt_split deps hnl a b h

/-! ## The closer search through the formatted block -/

theorem findClose_build2 {w : List Char} (hw : ∀ x ∈ w, pyWs x = true) (v : List Char) :
    ∀ (X : List Char),
    (∀ a b, X = a ++ '\n' :: b → ∃ bw bq b2, b = bw ++ bq :: b2 ∧
      (∀ x ∈ bw, pyWs x = true) ∧ pyWs bq = false ∧ bq ≠ ']') →
    findClose (X ++ '\n' :: (w ++ ']' :: v)) = some (X, w, v) := by
  intro X
  induction X with
  | nil =>
    intro _
    have e := takeWhile_app_stop hw (by decide : pyWs ']' = false) v
    rw [List.nil_append, findClose, if_pos rfl, e.2]
    dsimp only
    rw [if_pos rfl, e.1]
  | cons c X2 ih =>
    intro hX
    have hX2 : ∀ a b, X2 = a ++ '\n' :: b → ∃ bw bq b2, b = bw ++ bq :: b2 ∧
        (∀ x ∈ bw, pyWs x = true) ∧ pyWs bq = false ∧ bq ≠ ']' := by
      intro a b hab
      exact hX (c :: a) b (by rw [hab]; rfl)
    rw [List.cons_append, findClose]
    by_cases hc : c = '\n'
    · rw [if_pos hc]
      obtain ⟨bw, bq, b2, hb, hbw, hbq, hbqne⟩ := hX [] X2 (by rw [hc]; rfl)
      have e2 : X2 ++ '\n' :: (w ++ ']' :: v) =
          bw ++ bq :: (b2 ++ '\n' :: (w ++ ']' :: v)) := by
        rw [hb]
        simp
      have e3 := takeWhile_app_stop hbw hbq (b2 ++ '\n' :: (w ++ ']' :: v))
      rw [e2, e3.2]
      dsimp only
      rw [if_neg hbqne, ← e2, ih hX2]
      rfl
    · rw [if_neg hc, ih hX2]
      rfl

theorem findClose_min : ∀ {s b w r : List Char}, findClose s = some (b, w, r) →
    ∀ q0 cw c2, s = q0 ++ '\n' :: (cw ++ ']' :: c2) → (∀ x ∈ cw, pyWs x = true) →
    b.length ≤ q0.length := by
  intro s
  induction s with
  | nil =>
    intro b w r h
    simp [findClose] at h
  | cons c cs ih =>
    intro b w r h q0 cw c2 hs hcw
    by_cases hc : c = '\n'
    · rw [findClose, if_pos hc] at h
      rcases hd : cs.dropWhile pyWs with _ | ⟨q, rr⟩
      · rw [hd] at h
        try dsimp only at h
        rcases h2 : findClose cs with _ | ⟨⟨b2, w2, r2⟩⟩
        · rw [h2] at h
          exact absurd h (by simp)
        · rw [h2] at h
          try dsimp only at h
          obtain ⟨hb, _, _⟩ : c :: b2 = b ∧ w2 = w ∧ r2 = r := by simpa using h
          cases q0 with
          | nil =>
            exfalso
            have hcs : cs = cw ++ ']' :: c2 := by
              have := hs
              simp at this
              exact this.2
            have e := takeWhile_app_stop hcw (by decide : pyWs ']' = false) c2
            rw [hcs, e.2] at hd
            exact absurd hd (by simp)
          | cons a q02 =>
            obtain ⟨_, hcs⟩ : c = a ∧ cs = q02 ++ '\n' :: (cw ++ ']' :: c2) := by
              have := hs
              simp at this
              exact this
            have := ih h2 q02 cw c2 hcs hcw
            rw [← hb]
            simp
            omega
      · rw [hd] at h
        try dsimp only at h
        by_cases hq : q = ']'
        · rw [if_pos hq] at h
          obtain ⟨hb, _, _⟩ : ([] : List Char) = b ∧ _ = w ∧ rr = r := by simpa using h
          rw [← hb]
          simp
        · rw [if_neg hq] at h
          rcases h2 : findClose cs with _ | ⟨⟨b2, w2, r2⟩⟩
          · rw [h2] at h
            exact absurd h (by simp)
          · rw [h2] at h
            try dsimp only at h
            obtain ⟨hb, _, _⟩ : c :: b2 = b ∧ w2 = w ∧ r2 = r := by simpa using h
            cases q0 with
            | nil =>
              exfalso
              have hcs : cs = cw ++ ']' :: c2 := by
                have := hs
                simp at this
                exact this.2
              have e := takeWhile_app_stop hcw (by decide : pyWs ']' = false) c2
              rw [hcs, e.2] at hd
              have h5 : ']' = q := by simpa using congrArg List.head? hd
              exact hq h5.symm
            | cons a q02 =>
              obtain ⟨_, hcs⟩ : c = a ∧ cs = q02 ++ '\n' :: (cw ++ ']' :: c2) := by
                have := hs
                simp at this
                exact this
              have := ih h2 q02 cw c2 hcs hcw
              rw [← hb]
              simp
              omega
    · rw [findClose, if_neg hc] at h
      rcases h2 : findClose cs with _ | ⟨⟨b2, w2, r2⟩⟩
      · rw [h2] at h
        exact absurd h (by simp)
      · rw [h2] at h
        try dsimp only at h
        obtain ⟨hb, _, _⟩ : c :: b2 = b ∧ w2 = w ∧ r2 = r := by simpa using h
        cases q0 with
        | nil =>
          exfalso
          have : c = '\n' := by simpa using congrArg List.head? hs
          exact hc this
        | cons a q02 =>
          obtain ⟨_, hcs⟩ : c = a ∧ cs = q02 ++ '\n' :: (cw ++ ']' :: c2) := by
            have := hs
            simp at this
            exact this
          have := ih h2 q02 cw c2 hcs hcw
          rw [← hb]
          simp
          omega

theorem candLoopR_spaces : ∀ (n : Nat) (gb rest : List Char),
    candLoopR (List.replicate n ' ' ++ ['\n']) gb rest =
      candLoopR ['\n'] (List.replicate n ' ' ++ gb) rest := by
  intro n
  induction n with
  | zero => intro gb rest; simp
  | succ k ih =>
    intro gb rest
    have e : List.replicate (k + 1) ' ' ++ ['\n'] =
        ' ' :: (List.replicate k ' ' ++ ['\n']) := by
      rw [List.replicate_succ]
      rfl
    rw [e, candLoopR, if_neg (by decide : ¬(' ' = '\n')), ih]
    have e2 : List.replicate k ' ' ++ (' ' :: gb) = List.replicate (k + 1) ' ' ++ gb := by
      rw [List.replicate_succ']
      simp
    rw [e2]

/-- A replacement block re-matches exactly itself, with any continuation:
the opener parses back, the whitespace-newline element consumes the single
inserted newline, and the closer search stops exactly at the final
newline-bracket, because every newline inside the formatted entries is
followed by indent spaces and a quote. -/
theorem tryMatchC_replC {label w1 w2 D c2 : List Char} {n : Nat}
    (hw1 : ∀ x ∈ w1, pyWs x = true) (hw2 : ∀ x ∈ w2, pyWs x = true)
    (hD : D = List.replicate n ' ' ++ '"' :: c2)
    (hDsplit : ∀ a b, D = a ++ '\n' :: b → ∃ bw bq b2, b = bw ++ bq :: b2 ∧
      (∀ x ∈ bw, pyWs x = true) ∧ pyWs bq = false ∧ bq ≠ ']')
    (K : List Char) :
    tryMatchC label (replC (label ++ w1 ++ '=' :: w2 ++ ['[']) D ++ K) =
      some ⟨label ++ w1 ++ '=' :: w2 ++ ['['], ['\n'], D, [], K⟩ := by
  have hstr : replC (label ++ w1 ++ '=' :: w2 ++ ['[']) D ++ K =
      label ++ (w1 ++ '=' :: (w2 ++ '[' :: ('\n' :: (D ++ '\n' :: ']' :: K)))) := by
    simp [replC]
  rw [hstr]
  unfold tryMatchC
  rw [openerParse_build _ ⟨by decide, by decide⟩ hw1 hw2]
  dsimp only
  have hws : ∀ x ∈ ('\n' :: List.replicate n ' '), pyWs x = true := by
    intro x hx
    rcases List.mem_cons.mp hx with h | h
    · rw [h]; decide
    · rw [List.eq_of_mem_replicate h]; decide
  have hr3 : '\n' :: (D ++ '\n' :: ']' :: K) =
      ('\n' :: List.replicate n ' ') ++ '"' :: (c2 ++ '\n' :: ']' :: K) := by
    rw [hD]
    simp
  have e := takeWhile_app_stop hws (by decide : pyWs '"' = false) (c2 ++ '\n' :: ']' :: K)
  rw [hr3, e.1, e.2, candLoop]
  have hrev : ('\n' :: List.replicate n ' ').reverse = List.replicate n ' ' ++ ['\n'] := by
    simp
  rw [hrev, candLoopR_spaces, candLoopR, if_pos rfl]
  have eD : (List.replicate n ' ' ++ []) ++ ('"' :: (c2 ++ '\n' :: ']' :: K)) =
      D ++ '\n' :: ([] ++ ']' :: K) := by
    rw [hD]
    simp
  rw [eD, findClose_build2 (by simp) K D hDsplit]
  simp

/-! ## The scan-invariant: a document made of failing positions and
replacement blocks is a fixed point of the scan -/

theorem goodD_fmt {deps : List (List Char)} (hne : deps ≠ [])
    (hnl : ∀ d ∈ deps, '\n' ∉ d) (indent : Nat) :
    GoodD (format_dependencies deps indent) := by
  constructor
  · obtain ⟨c2, hc⟩ := fmt_head hne indent
    exact ⟨indent, c2, hc⟩
  · intro a b h
    obtain ⟨c2, hc⟩ := fmt_split hnl hne indent a b h
    exact ⟨List.replicate indent ' ', '"', c2, hc,
      fun x hx => by rw [List.eq_of_mem_replicate hx]; decide, by decide, by decide⟩

theorem scanSelf_prepend {label D : List Char} : ∀ {pre K : List Char},
    (∀ a b, pre = a ++ b → b ≠ [] → tryMatchC label (b ++ K) = none) →
    ScanSelf label D K → ScanSelf label D (pre ++ K) := by
  intro pre
  induction pre with
  | nil =>
    intro K _ hK
    simpa using hK
  | cons c p2 ih =>
    intro K hfail hK
    have h1 : tryMatchC label ((c :: p2) ++ K) = none := hfail [] (c :: p2) rfl (by simp)
    rw [List.cons_append]
    exact ScanSelf.skip c (p2 ++ K) (by rw [← List.cons_append]; exact h1)
      (ih (fun a b hab hb => hfail (c :: a) b (by rw [hab]; rfl) hb) hK)

theorem scanSelf_of_findM_none {label D : List Char} : ∀ {s : List Char},
    findM label s = none → ScanSelf label D s := by
  intro s
  induction s with
  | nil => intro _; exact ScanSelf.nil
  | cons c cs ih =>
    intro h
    rcases hm : tryMatchC label (c :: cs) with _ | m
    · have h2 : findM label cs = none := by
        rw [findM, hm] at h
        simpa using h
      exact ScanSelf.skip c cs hm (ih h2)
    · rw [findM, hm] at h
      exact absurd h (by simp)

theorem scanSelf_fix {label D : List Char} (hD : GoodD D) :
    ∀ {s : List Char}, ScanSelf label D s → subAllC label D s = s := by
  intro s hs
  induction hs with
  | nil => exact subCGo_nil _ _ _
  | skip c cs hfail _ ih =>
    show subCGo label D (cs.length + 1) (c :: cs) = c :: cs
    rw [subCGo_step_none hfail]
    rw [show subCGo label D cs.length cs = subAllC label D cs from rfl, ih]
  | fire w1 w2 K hw1 hw2 _ ih =>
    obtain ⟨⟨n, c2, hDh⟩, hDs⟩ := hD
    have hfire := @tryMatchC_replC label w1 w2 D c2 n hw1 hw2 hDh hDs K
    rcases hshape : replC (label ++ w1 ++ '=' :: w2 ++ ['[']) D ++ K with _ | ⟨x, xs⟩
    · exfalso
      simp [replC] at hshape
    · show subCGo label D (xs.length + 1) (x :: xs) = x :: xs
      have hfire2 : tryMatchC label (x :: xs) =
          some ⟨label ++ w1 ++ '=' :: w2 ++ ['['], ['\n'], D, [], K⟩ := by
        rw [← hshape]
        exact hfire
      rw [subCGo_step_some hfire2]
      dsimp only
      have hKlen : K.length ≤ xs.length := by
        have hlen := congrArg List.length hshape
        simp [replC] at hlen
        omega
      rw [subCGo_fuel label D xs.length K hKlen]
      rw [show subCGo label D K.length K = subAllC label D K from rfl, ih]
      exact hshape

theorem scanSelf_subAllC {label D : List Char} (hl : label ≠ [])
    (hlc : ∀ c ∈ label, pyWs c = false ∧ c ≠ '=' ∧ c ≠ '[') :
    ∀ (n : Nat) (s : List Char), s.length ≤ n → ScanSelf label D (subAllC label D s) := by
  have hlbr : '[' ∉ label := fun h => (hlc '[' h).2.2 rfl
  have hsubself : ∀ b2 k, b2 ≠ [] → label ≠ b2 ++ (label ++ k) := by
    intro b2 k hb2 he
    have hlen := congrArg List.length he
    simp at hlen
    exact hb2 (List.length_eq_zero.mp (by omega))
  intro n
  induction n using Nat.strong_induction_on with
  | _ n ih =>
    intro s hs
    rcases hf : findM label s with _ | ⟨pre, m⟩
    · rw [subC_findM_none hf]
      exact scanSelf_of_findM_none hf
    · rw [subC_findM_some hf]
      obtain ⟨mfull, hsplit, hmf, hpref⟩ := findM_some hf
      obtain ⟨hdec, ⟨w1, w2, hg1, hw1, hw2⟩, _, _, hcw⟩ := tryMatchC_decomp hmf
      have hml : m.rest.length < s.length := by
        have h1 := tryMatchC_len hmf
        have h2 : s.length = pre.length + mfull.length := by rw [hsplit]; simp
        omega
      have ihK : ScanSelf label D (subAllC label D m.rest) :=
        ih m.rest.length (by omega) m.rest (le_refl _)
      have hfireNode : ScanSelf label D (replC m.g1 D ++ subAllC label D m.rest) := by
        rw [hg1]
        exact ScanSelf.fire w1 w2 _ hw1 hw2 ihK
      refine scanSelf_prepend ?_ hfireNode
      intro a b hab hb
      have hold := hpref a b hab hb
      have holdT : tryMatchC label ((b ++ m.g1) ++
          ((m.wsnl ++ m.body) ++ '\n' :: (m.cw ++ ']' :: m.rest))) = none := by
        have e : (b ++ m.g1) ++ ((m.wsnl ++ m.body) ++ '\n' :: (m.cw ++ ']' :: m.rest)) =
            b ++ mfull := by
          rw [hdec]
          simp
        rw [e]
        exact hold
      have hnew := tryMatchC_transfer hb hl hlbr hlc hsubself hg1 hcw holdT
        ('\n' :: (D ++ ['\n', ']']) ++ subAllC label D m.rest)
      have e2 : (b ++ m.g1) ++ ('\n' :: (D ++ ['\n', ']']) ++ subAllC label D m.rest) =
          b ++ (replC m.g1 D ++ subAllC label D m.rest) := by
        simp [replC]
      rw [e2] at hnew
      exact hnew

theorem subAllC_idem {label D : List Char} (hl : label ≠ [])
    (hlc : ∀ c ∈ label, pyWs c = false ∧ c ≠ '=' ∧ c ≠ '[') (hD : GoodD D)
    (s : List Char) :
    subAllC label D (subAllC label D s) = subAllC label D s :=
  scanSelf_fix hD (scanSelf_subAllC hl hlc s.length s (le_refl _))

/-! ## Dead positions: suffixes from which no match can start, whatever follows -/

theorem tw_dw_app {s2 : List Char} {d : Char} {ds : List Char}
    (hdd : s2.dropWhile pyWs = d :: ds) (y : List Char) :
    (s2 ++ y).takeWhile pyWs = s2.takeWhile pyWs ∧
    (s2 ++ y).dropWhile pyWs = d :: (ds ++ y) := by
  have hdns := dropWhile_head_false hdd
  have htww : ∀ a ∈ s2.takeWhile pyWs, pyWs a = true := fun a ha =>
    List.mem_takeWhile_imp ha
  have e : s2 ++ y = s2.takeWhile pyWs ++ d :: (ds ++ y) := by
    conv_lhs => rw [(List.takeWhile_append_dropWhile pyWs s2).symm]
    rw [hdd]
    simp
  rw [e]
  exact takeWhile_app_stop htww hdns _

/-- From any position whose text up to the next double quote is free of
newlines, the array pattern cannot match: the whitespace-newline element
never finds a newline before the quote stops it. -/
theorem lineDeadC {label u : List Char} {h0 : Char} {lt : List Char}
    (hl : label = h0 :: lt) (hq : '"' ∉ label) (hnl : '\n' ∉ u) (zz : List Char) :
    tryMatchC label (u ++ '"' :: zz) = none := by
  have hx : (u ++ ['"']).getLast? = some '"' := by
    rw [glast_app (by simp) u]
    rfl
  have he : u ++ '"' :: zz = (u ++ ['"']) ++ zz := by simp
  rw [he]
  rcases openerParse_confined hq (by decide) (by decide) hx with
    h | ⟨G, s2, hxGs, hs2ne, hs2gl, hsome⟩ | ⟨W1, W2, _, _, hxform, _⟩
  · unfold tryMatchC
    rw [h zz]
  · have hnls2 : '\n' ∉ s2.takeWhile pyWs := by
      intro hm
      have h2 : '\n' ∈ u ++ ['"'] := by
        rw [hxGs]
        exact List.mem_append_right _ (mem_takeWhile_mem hm)
      rcases List.mem_append.mp h2 with h3 | h3
      · exact hnl h3
      · simp at h3
    have hdw : s2.dropWhile pyWs ≠ [] :=
      dropWhile_ne_nil_of_mem (mem_of_glast hs2gl) (by decide)
    rcases hdd : s2.dropWhile pyWs with _ | ⟨d, ds⟩
    · exact absurd hdd hdw
    unfold tryMatchC
    rw [hsome zz]
    dsimp only
    rw [(tw_dw_app hdd zz).1, (tw_dw_app hdd zz).2, candLoop,
      noNL_candLoopR (by simpa using hnls2) _ _]
  · exfalso
    have h2 : (u ++ ['"']).getLast? = some '[' := by
      rw [hxform]
      have e2 : label ++ W1 ++ '=' :: W2 ++ ['['] =
          (label ++ W1 ++ '=' :: W2) ++ ['['] := by simp
      rw [e2, glast_app (by simp)]
      rfl
    rw [hx] at h2
    exact absurd (Option.some.inj h2) (by decide)


theorem suffixDead_append {label u v : List Char} (hu : suffixDead label u)
    (hv : suffixDead label v) : suffixDead label (u ++ v) := by
  intro a b hab hb Y
  rcases List.append_eq_append_iff.mp hab with ⟨t, ha, hv2⟩ | ⟨t, hu2, hb2⟩
  · exact hv t b hv2 hb Y
  · by_cases ht : t = []
    · subst ht
      have hbv : b = v := by simpa using hb2
      subst hbv
      exact hv [] b rfl hb Y
    · have h2 := hu a t hu2 ht (v ++ Y)
      have e : b ++ Y = t ++ (v ++ Y) := by rw [hb2]; simp
      rw [e]
      exact h2

theorem suffixDead_single {label : List Char} {h0 : Char} {lt : List Char}
    (hl : label = h0 :: lt) {c : Char} (hc : c ≠ h0) : suffixDead label [c] := by
  intro a b hab hb Y
  rcases a with _ | ⟨x, a2⟩
  · have hbe : [c] = b := by simpa using hab
    rw [← hbe]
    exact headMismatch hl hc Y
  · have h2 : b = [] := by
      have := hab
      simp at this
      exact this.2.2
    exact absurd h2 hb

theorem suffixDead_all {label : List Char} {h0 : Char} {lt : List Char}
    (hl : label = h0 :: lt) : ∀ {u : List Char}, (∀ c ∈ u, c ≠ h0) →
    suffixDead label u := by
  intro u
  induction u with
  | nil =>
    intro _ a b hab hb _
    exact absurd (List.append_eq_nil.mp hab.symm).2 hb
  | cons c u2 ih =>
    intro hu
    exact suffixDead_append (suffixDead_single hl (hu c (by simp)))
      (ih (fun x hx => hu x (by simp [hx])))

theorem suffixDead_quoted {attack : List Char} {h0 : Char} {lt : List Char}
    (hl : attack = h0 :: lt) (hq : '"' ∉ attack) (hh4 : h0 ≠ ',') (hh5 : h0 ≠ '"')
    {d : List Char} (hd : '\n' ∉ d) :
    suffixDead attack ('"' :: (d ++ ['"', ','])) := by
  intro a b hab hb Y
  cases a with
  | nil =>
    have hbe : '"' :: (d ++ ['"', ',']) = b := by simpa using hab
    rw [← hbe]
    exact headMismatch hl (fun he => hh5 he.symm) _
  | cons x a2 =>
    obtain ⟨hx, h2⟩ : '"' = x ∧ d ++ ['"', ','] = a2 ++ b := by simpa using hab
    rcases List.append_eq_append_iff.mp h2 with ⟨a3, _, h3⟩ | ⟨c3, hc3, h3⟩
    · rcases a3 with _ | ⟨y1, a4⟩
      · have hbe : ['"', ','] = b := by simpa using h3
        rw [← hbe]
        exact @lineDeadC attack [] h0 lt hl hq (by decide) (',' :: Y)
      · obtain ⟨hy, h4⟩ : '"' = y1 ∧ [','] = a4 ++ b := by simpa using h3
        rcases a4 with _ | ⟨y2, a5⟩
        · have hbe : [','] = b := by simpa using h4
          rw [← hbe]
          exact headMismatch hl (fun he => hh4 he.symm) _
        · obtain ⟨_, h5⟩ : ',' = y2 ∧ ([] : List Char) = a5 ++ b := by simpa using h4
          exact absurd (List.append_eq_nil.mp h5.symm).2 hb
    · rw [h3]
      have e : (c3 ++ ['"', ',']) ++ Y = c3 ++ '"' :: (',' :: Y) := by simp
      rw [e]
      refine lineDeadC hl hq ?_ (',' :: Y)
      intro hm
      exact hd (by rw [hc3]; exact List.mem_append_right _ hm)

theorem suffixDead_fmt {attack : List Char} {h0 : Char} {lt : List Char}
    (hl : attack = h0 :: lt) (hq : '"' ∉ attack) (hh0 : pyWs h0 = false)
    (hh4 : h0 ≠ ',') (hh5 : h0 ≠ '"') (indent : Nat) :
    ∀ (ds : List (List Char)), (∀ d ∈ ds, '\n' ∉ d) →
    suffixDead attack (joinLines (ds.map (formatDep indent))) := by
  have hsp : (' ' : Char) ≠ h0 := by
    intro he
    rw [← he] at hh0
    exact absurd hh0 (by decide)
  have hnlh : ('\n' : Char) ≠ h0 := by
    intro he
    rw [← he] at hh0
    exact absurd hh0 (by decide)
  intro ds
  induction ds with
  | nil =>
    intro _ a b hab hb _
    exact absurd (List.append_eq_nil.mp hab.symm).2 hb
  | cons d ds2 ih =>
    intro hnl
    have hFD : suffixDead attack (formatDep indent d) := by
      have e : formatDep indent d =
          List.replicate indent ' ' ++ ('"' :: (d ++ ['"', ','])) := rfl
      rw [e]
      refine suffixDead_append ?_ ?_
      · exact suffixDead_all hl
          (fun c hc => by rw [List.eq_of_mem_replicate hc]; exact hsp)
      · exact suffixDead_quoted hl hq hh4 hh5 (hnl d (by simp))
    cases ds2 with
    | nil => exact hFD
    | cons d2 ds3 =>
      rw [List.map_cons, List.map_cons, joinLines_cons2]
      have e2 : formatDep indent d ++
          '\n' :: joinLines (formatDep indent d2 :: List.map (formatDep indent) ds3) =
          formatDep indent d ++
          (['\n'] ++ joinLines (formatDep indent d2 :: List.map (formatDep indent) ds3)) := by
        simp
      rw [e2]
      refine suffixDead_append hFD (suffixDead_append ?_ ?_)
      · exact suffixDead_single hl hnlh
      · exact ih (fun x hx => hnl x (by simp [hx]))

theorem blockDead {attack label2 g1 w1 w2 : List Char} {h0 : Char} {lt : List Char}
    (hl : attack = h0 :: lt) (hq : '"' ∉ attack)
    (hh0 : pyWs h0 = false) (hh1 : h0 ≠ '=') (hh2 : h0 ≠ '[') (hh3 : h0 ≠ ']')
    (hh4 : h0 ≠ ',') (hh5 : h0 ≠ '"') (hh6 : h0 ∉ label2)
    (hg1 : g1 = label2 ++ w1 ++ '=' :: w2 ++ ['['])
    (hw1 : ∀ x ∈ w1, pyWs x = true) (hw2 : ∀ x ∈ w2, pyWs x = true)
    {deps : List (List Char)} (hnl : ∀ d ∈ deps, '\n' ∉ d) (hne : deps ≠ [])
    (indent : Nat) :
    suffixDead attack (replC g1 (format_dependencies deps indent)) := by
  have hwsne : ∀ c : Char, pyWs c = true → c ≠ h0 := by
    intro c hc he
    rw [he, hh0] at hc
    exact absurd hc (by simp)
  have hg1dead : suffixDead attack g1 := by
    refine suffixDead_all hl ?_
    intro c hc he
    rw [hg1] at hc
    rcases List.mem_append.mp hc with h | h
    · rcases List.mem_append.mp h with h | h
      · rcases List.mem_append.mp h with h | h
        · rw [he] at h
          exact hh6 h
        · exact hwsne c (hw1 c h) he
      · rcases List.mem_cons.mp h with h | h
        · rw [he] at h
          exact hh1 h
        · exact hwsne c (hw2 c h) he
    · rcases List.mem_cons.mp h with h | h
      · rw [he] at h
        exact hh2 h
      · simp at h
  have e : replC g1 (format_dependencies deps indent) =
      g1 ++ (['\n'] ++ (format_dependencies deps indent ++ (['\n'] ++ [']']))) := by
    simp [replC]
  rw [e]
  refine suffixDead_append hg1dead (suffixDead_append (suffixDead_single hl ?_)
    (suffixDead_append ?_ (suffixDead_append (suffixDead_single hl ?_)
      (suffixDead_single hl ?_))))
  · intro he
    rw [← he] at hh0
    exact absurd hh0 (by decide)
  · rw [format_dependencies, if_neg hne, intercalate_eq_joinLines]
    exact suffixDead_fmt hl hq hh0 hh4 hh5 indent deps hnl
  · intro he
    rw [← he] at hh0
    exact absurd hh0 (by decide)
  · exact fun he => hh3 he.symm

/-! ## No closer ends strictly inside a replacement block -/

theorem splitNL_app {P Q a b : List Char} (h : P ++ Q = a ++ '\n' :: b) :
    (∃ a1 b1, P = a1 ++ '\n' :: b1 ∧ b = b1 ++ Q) ∨
    (∃ a2, a = P ++ a2 ∧ Q = a2 ++ '\n' :: b) := by
  rcases List.append_eq_append_iff.mp h with ⟨t, ha, hQ⟩ | ⟨t, hP, ht⟩
  · exact Or.inr ⟨t, ha, hQ⟩
  · cases t with
    | nil =>
      right
      refine ⟨[], by simpa using hP.symm, ?_⟩
      simpa using ht.symm
    | cons x t2 =>
      left
      obtain ⟨hx, hb⟩ : '\n' = x ∧ b = t2 ++ Q := by simpa using ht
      exact ⟨a, t2, by rw [hP, ← hx], hb⟩

theorem cond_X {label2 w1 w2 D : List Char}
    (hl2ws : ∀ c ∈ label2, pyWs c = false)
    (hw1 : ∀ x ∈ w1, pyWs x = true) (hw2 : ∀ x ∈ w2, pyWs x = true)
    (hD : GoodD D) :
    ∀ a b, (label2 ++ w1 ++ '=' :: w2 ++ ['[']) ++ '\n' :: D = a ++ '\n' :: b →
    ∃ bw bq b2, b = bw ++ bq :: b2 ∧ (∀ x ∈ bw, pyWs x = true) ∧
      pyWs bq = false ∧ bq ≠ ']' := by
  intro a b h
  have h2 : label2 ++ (w1 ++ ('=' :: (w2 ++ ('[' :: ('\n' :: D))))) = a ++ '\n' :: b := by
    rw [← h]
    simp
  rcases splitNL_app h2 with ⟨a1, b1, hP, _⟩ | ⟨a2, _, hQ⟩
  · exfalso
    have hm : '\n' ∈ label2 := by rw [hP]; simp
    exact absurd (hl2ws '\n' hm) (by decide)
  · rcases splitNL_app hQ with ⟨a1, b1, hP, hb⟩ | ⟨a3, _, hQ2⟩
    · refine ⟨b1, '=', w2 ++ ('[' :: ('\n' :: D)), hb, ?_, by decide, by decide⟩
      intro x hx
      exact hw1 x (by rw [hP]; simp [hx])
    · cases a3 with
      | nil =>
        exfalso
        have he : ('=' : Char) = '\n' := by simpa using congrArg List.head? hQ2
        exact absurd he (by decide)
      | cons y a4 =>
        obtain ⟨_, hQ3⟩ : '=' = y ∧ w2 ++ ('[' :: ('\n' :: D)) = a4 ++ '\n' :: b := by
          simpa using hQ2
        rcases splitNL_app hQ3 with ⟨a1, b1, hP, hb⟩ | ⟨a5, _, hQ4⟩
        · refine ⟨b1, '[', '\n' :: D, hb, ?_, by decide, by decide⟩
          intro x hx
          exact hw2 x (by rw [hP]; simp [hx])
        · cases a5 with
          | nil =>
            exfalso
            have he : ('[' : Char) = '\n' := by simpa using congrArg List.head? hQ4
            exact absurd he (by decide)
          | cons z a6 =>
            obtain ⟨_, hQ5⟩ : '[' = z ∧ '\n' :: D = a6 ++ '\n' :: b := by simpa using hQ4
            cases a6 with
            | nil =>
              obtain ⟨n, c2, hDh⟩ := hD.1
              have hbD : D = b := by simpa using hQ5
              exact ⟨List.replicate n ' ', '"', c2, by rw [← hbD, hDh],
                fun x hx => by rw [List.eq_of_mem_replicate hx]; decide,
                by decide, by decide⟩
            | cons t a7 =>
              obtain ⟨_, hQ6⟩ : '\n' = t ∧ D = a7 ++ '\n' :: b := by simpa using hQ5
              exact hD.2 a7 b hQ6

theorem block_no_inner_closer {g1 D label2 w1 w2 : List Char}
    (hg1 : g1 = label2 ++ w1 ++ '=' :: w2 ++ ['['])
    (hl2ws : ∀ c ∈ label2, pyWs c = false)
    (hw1 : ∀ x ∈ w1, pyWs x = true) (hw2 : ∀ x ∈ w2, pyWs x = true)
    (hD : GoodD D) {q0 cw c2 : List Char} (hcw : ∀ x ∈ cw, pyWs x = true)
    (heq : replC g1 D = q0 ++ '\n' :: (cw ++ ']' :: c2)) : cw = [] ∧ c2 = [] := by
  have hfc : findClose ((g1 ++ '\n' :: D) ++ '\n' :: ([] ++ ']' :: [])) =
      some (g1 ++ '\n' :: D, [], []) := by
    refine findClose_build2 (by simp) [] _ ?_
    rw [hg1]
    exact cond_X hl2ws hw1 hw2 hD
  have hblock : replC g1 D = (g1 ++ '\n' :: D) ++ '\n' :: ([] ++ ']' :: []) := by
    simp [replC]
  have heq2 : (g1 ++ '\n' :: D) ++ '\n' :: ([] ++ ']' :: []) =
      q0 ++ '\n' :: (cw ++ ']' :: c2) := by
    rw [← hblock]
    exact heq
  have hmin := findClose_min hfc q0 cw c2 heq2 hcw
  have hlen := congrArg List.length heq2
  simp [List.length_append] at hlen hmin
  constructor
  · exact List.length_eq_zero.mp (by omega)
  · exact List.length_eq_zero.mp (by omega)


theorem scanSelf_extract {label D : List Char} {h0 : Char} {lt : List Char}
    (hl : label = h0 :: lt) (hlws : ∀ c ∈ label, pyWs c = false)
    (hh : h0 ≠ ']') (hD : GoodD D) :
    ∀ {z : List Char}, ScanSelf label D z → ∀ Q rest, z = Q ++ rest → EndsCl Q →
    ScanSelf label D rest := by
  have hh0ws : pyWs h0 = false := hlws h0 (by rw [hl]; simp)
  intro z hz
  induction hz with
  | nil =>
    intro Q rest hQ hE
    have hr : rest = [] := (List.append_eq_nil.mp hQ.symm).2
    rw [hr]
    exact ScanSelf.nil
  | skip c cs hfail hcs ih =>
    intro Q rest hQ hE
    rcases hE with ⟨q0, cw, hcww, hQe⟩ | ⟨cw, hcww, hQe⟩
    · cases q0 with
      | nil =>
        obtain ⟨_, hcs2⟩ : c = '\n' ∧ cs = (cw ++ [']']) ++ rest := by
          rw [hQe] at hQ
          simpa using hQ
        exact ih (cw ++ [']']) rest hcs2 (Or.inr ⟨cw, hcww, rfl⟩)
      | cons x q02 =>
        obtain ⟨_, hcs2⟩ : c = x ∧ cs = (q02 ++ '\n' :: (cw ++ [']'])) ++ rest := by
          rw [hQe] at hQ
          simp at hQ
          exact ⟨hQ.1, by rw [hQ.2]; simp⟩
        exact ih (q02 ++ '\n' :: (cw ++ [']'])) rest hcs2 (Or.inl ⟨q02, cw, hcww, rfl⟩)
    · cases cw with
      | nil =>
        obtain ⟨_, hcs2⟩ : c = ']' ∧ cs = rest := by
          rw [hQe] at hQ
          simpa using hQ
        exact hcs2 ▸ hcs
      | cons w0 cw2 =>
        obtain ⟨_, hcs2⟩ : c = w0 ∧ cs = (cw2 ++ [']']) ++ rest := by
          rw [hQe] at hQ
          simp at hQ
          exact ⟨hQ.1, by rw [hQ.2]; simp⟩
        exact ih (cw2 ++ [']']) rest hcs2
          (Or.inr ⟨cw2, fun x hx => hcww x (by simp [hx]), rfl⟩)
  | fire w1 w2 K hw1 hw2 hK ih =>
    intro Q rest hQ hE
    rcases List.append_eq_append_iff.mp hQ with ⟨t, hQe, hKe⟩ | ⟨t, hbe, hre⟩
    · by_cases ht : t = []
      · subst ht
        have hKr : K = rest := by simpa using hKe
        exact hKr ▸ hK
      · have hEt : EndsCl t := by
          rcases hE with ⟨q0, cw, hcww, hQf⟩ | ⟨cw, hcww, hQf⟩
          · have he : replC (label ++ w1 ++ '=' :: w2 ++ ['[']) D ++ t =
                q0 ++ ('\n' :: (cw ++ [']'])) := by
              rw [← hQf, hQe]
            rcases List.append_eq_append_iff.mp he with ⟨s, hq0e, hte⟩ | ⟨s, hbe2, hse⟩
            · exact Or.inl ⟨s, cw, hcww, hte⟩
            · cases s with
              | nil =>
                refine Or.inl ⟨[], cw, hcww, ?_⟩
                simpa using hse.symm
              | cons y s2 =>
                exfalso
                obtain ⟨hy, hs2⟩ : '\n' = y ∧ cw ++ [']'] = s2 ++ t := by simpa using hse
                have hgl : (replC (label ++ w1 ++ '=' :: w2 ++ ['[']) D).getLast? =
                    some ']' := by
                  have e2 : replC (label ++ w1 ++ '=' :: w2 ++ ['[']) D =
                      ((label ++ w1 ++ '=' :: w2 ++ ['[']) ++ '\n' :: (D ++ ['\n'])) ++
                        [']'] := by
                    simp [replC]
                  rw [e2, glast_app (by simp)]
                  rfl
                rw [hbe2] at hgl
                cases s2 with
                | nil =>
                  rw [← hy] at hgl
                  have e3 : (q0 ++ ['\n']).getLast? = some '\n' := by
                    rw [glast_app (by simp)]
                    rfl
                  have e4 : q0 ++ '\n' :: ([] : List Char) = q0 ++ ['\n'] := rfl
                  rw [e4, e3] at hgl
                  exact absurd (Option.some.inj hgl) (by decide)
                | cons u0 s3 =>
                  have hgl2 : (q0 ++ y :: u0 :: s3).getLast? = (u0 :: s3).getLast? := by
                    have e5 : q0 ++ y :: u0 :: s3 = (q0 ++ [y]) ++ (u0 :: s3) := by simp
                    rw [e5, glast_app (by simp)]
                  rw [hgl2] at hgl
                  have hmem : (']' : Char) ∈ u0 :: s3 := by
                    rw [← Option.some.inj hgl]
                    exact mem_of_glast rfl
                  have hsub : ∀ x ∈ u0 :: s3, x ∈ cw := by
                    intro x hx
                    rcases List.append_eq_append_iff.mp hs2.symm with
                      ⟨v, hcwv, hv⟩ | ⟨v, hsv, hv⟩
                    · rw [hcwv]
                      exact List.mem_append_left _ hx
                    · cases v with
                      | nil =>
                        have hcweq : cw = u0 :: s3 := by simpa using hsv.symm
                        rw [hcweq]
                        exact hx
                      | cons v0 v2 =>
                        exfalso
                        obtain ⟨hv0, hv2⟩ : ']' = v0 ∧ ([] : List Char) = v2 ++ t := by
                          simpa using hv
                        exact ht (List.append_eq_nil.mp hv2.symm).2
                  have := hcww ']' (hsub ']' hmem)
                  exact absurd this (by decide)
          · exfalso
            have he : replC (label ++ w1 ++ '=' :: w2 ++ ['[']) D ++ t = cw ++ [']'] := by
              rw [← hQf, hQe]
            have hhead : (replC (label ++ w1 ++ '=' :: w2 ++ ['[']) D).head? = some h0 := by
              rw [hl]
              rfl
            rcases List.append_eq_append_iff.mp he with ⟨s, hcws, hts⟩ | ⟨s, hbs, hss⟩
            · have hmem : h0 ∈ cw := by
                rw [hcws]
                rcases hbb : replC (label ++ w1 ++ '=' :: w2 ++ ['[']) D with _ | ⟨b0, bs⟩
                · rw [hbb] at hhead
                  exact absurd hhead (by simp)
                · rw [hbb] at hhead
                  have : b0 = h0 := by simpa using hhead
                  rw [← this]
                  simp
              exact absurd (hcww h0 hmem) (by simp [hh0ws])
            · cases s with
              | nil =>
                have hbcw : replC (label ++ w1 ++ '=' :: w2 ++ ['[']) D = cw := by
                  simpa using hbs
                have hmem : h0 ∈ cw := by
                  rw [← hbcw]
                  rcases hbb : replC (label ++ w1 ++ '=' :: w2 ++ ['[']) D with _ | ⟨b0, bs⟩
                  · rw [hbb] at hhead
                    exact absurd hhead (by simp)
                  · rw [hbb] at hhead
                    have : b0 = h0 := by simpa using hhead
                    rw [← this]
                    simp
                exact absurd (hcww h0 hmem) (by simp [hh0ws])
              | cons y s2 =>
                obtain ⟨_, hs2⟩ : ']' = y ∧ ([] : List Char) = s2 ++ t := by simpa using hss
                exact ht (List.append_eq_nil.mp hs2.symm).2
        exact ih t rest hKe hEt
    · by_cases hc : t = []
      · subst hc
        have hQb : Q = replC (label ++ w1 ++ '=' :: w2 ++ ['[']) D := by simpa using hbe.symm
        have hrK : rest = K := by simpa using hre
        exact hrK ▸ hK
      · exfalso
        rcases hE with ⟨q0, cw, hcww, hQf⟩ | ⟨cw, hcww, hQf⟩
        · have heq : replC (label ++ w1 ++ '=' :: w2 ++ ['[']) D =
              q0 ++ '\n' :: (cw ++ ']' :: t) := by
            rw [hbe, hQf]
            simp
          obtain ⟨_, hc2⟩ := block_no_inner_closer rfl hlws hw1 hw2 hD hcww heq
          exact hc hc2
        · have hhead : (replC (label ++ w1 ++ '=' :: w2 ++ ['[']) D).head? = some h0 := by
            rw [hl]
            rfl
          cases cw with
          | nil =>
            have he2 : replC (label ++ w1 ++ '=' :: w2 ++ ['[']) D = ']' :: t := by
              rw [hbe, hQf]
              rfl
            rw [he2] at hhead
            have : ']' = h0 := by simpa using hhead
            exact hh this.symm
          | cons w0 cw2 =>
            have he2 : replC (label ++ w1 ++ '=' :: w2 ++ ['[']) D =
                w0 :: (cw2 ++ ']' :: t) := by
              rw [hbe, hQf]
              simp
            rw [he2] at hhead
            have hw0 : w0 = h0 := by simpa using hhead
            have := hcww w0 (by simp)
            rw [hw0] at this
            exact absurd this (by simp [hh0ws])

/-! ## The other pass preserves the scan-invariant -/

theorem scanSelf_walk {label D label2 D2 : List Char}
    (hl2ne : label2 ≠ [])
    (hlc : ∀ c ∈ label, pyWs c = false ∧ c ≠ '=' ∧ c ≠ '[')
    (hl2c : ∀ c ∈ label2, pyWs c = false ∧ c ≠ '=' ∧ c ≠ '[')
    (hsub : ∀ b2 k, b2 ≠ [] → label ≠ b2 ++ (label2 ++ k))
    (hdead2 : ∀ g1 : List Char, (∃ w1 w2, (∀ x ∈ w1, pyWs x = true) ∧
      (∀ x ∈ w2, pyWs x = true) ∧ g1 = label2 ++ w1 ++ '=' :: w2 ++ ['[']) →
      suffixDead label (replC g1 D2))
    (hdeadT : ∀ w1 w2 : List Char, (∀ x ∈ w1, pyWs x = true) →
      (∀ x ∈ w2, pyWs x = true) →
      suffixDead label2 (replC (label ++ w1 ++ '=' :: w2 ++ ['[']) D)) :
    ∀ {z : List Char}, ScanSelf label D z → ∀ P M (m : CMatch), z = P ++ M →
    tryMatchC label2 M = some m → ∀ {W : List Char}, ScanSelf label D W →
    ScanSelf label D (P ++ (replC m.g1 D2 ++ W)) := by
  obtain ⟨h2, lt2, hl2⟩ : ∃ h2 lt2, label2 = h2 :: lt2 := by
    cases label2 with
    | nil => exact absurd rfl hl2ne
    | cons a b => exact ⟨a, b, rfl⟩
  intro z hz
  induction hz with
  | nil =>
    intro P M m hPM hm W hW
    have hM : M = [] := (List.append_eq_nil.mp hPM.symm).2
    rw [hM, tryMatchC_nil hl2] at hm
    exact absurd hm (by simp)
  | skip c cs hfail hcs ih =>
    intro P M m hPM hm W hW
    cases P with
    | nil =>
      obtain ⟨_, ⟨w1, w2, hg1, hw1, hw2⟩, _, _, _⟩ := tryMatchC_decomp hm
      have hdead := hdead2 m.g1 ⟨w1, w2, hw1, hw2, hg1⟩
      rw [List.nil_append]
      refine scanSelf_prepend ?_ hW
      intro a b hab hb
      exact hdead a b hab hb W
    | cons x P2 =>
      obtain ⟨rfl, hcs2⟩ : x = c ∧ cs = P2 ++ M := by
        have := hPM
        simp at this
        exact ⟨this.1.symm, this.2⟩
      have hrec := ih P2 M m hcs2 hm hW
      rw [List.cons_append]
      refine ScanSelf.skip x _ ?_ hrec
      obtain ⟨hdec, ⟨w1, w2, hg1, hw1, hw2⟩, _, _, hcw⟩ := tryMatchC_decomp hm
      have hold : tryMatchC label (((x :: P2) ++ m.g1) ++
          ((m.wsnl ++ m.body) ++ '\n' :: (m.cw ++ ']' :: m.rest))) = none := by
        have e : ((x :: P2) ++ m.g1) ++
            ((m.wsnl ++ m.body) ++ '\n' :: (m.cw ++ ']' :: m.rest)) = x :: cs := by
          rw [hcs2, hdec]
          simp
        rw [e]
        exact hfail
      have hnew := tryMatchC_transfer (show (x :: P2 : List Char) ≠ [] by simp) hl2ne
        (fun h => (hlc '[' h).2.2 rfl) hl2c hsub hg1 hcw hold
        ('\n' :: (D2 ++ ['\n', ']']) ++ W)
      have e2 : ((x :: P2) ++ m.g1) ++ ('\n' :: (D2 ++ ['\n', ']']) ++ W) =
          x :: (P2 ++ (replC m.g1 D2 ++ W)) := by
        simp [replC]
      rw [e2] at hnew
      exact hnew
  | fire w1 w2 K hw1 hw2 hK ih =>
    intro P M m hPM hm W hW
    rcases List.append_eq_append_iff.mp hPM with ⟨t, hPe, hKe⟩ | ⟨t, hbe, hMe⟩
    · have hrec := ih t M m hKe hm hW
      rw [hPe]
      have e : (replC (label ++ w1 ++ '=' :: w2 ++ ['[']) D ++ t) ++
          (replC m.g1 D2 ++ W) =
          replC (label ++ w1 ++ '=' :: w2 ++ ['[']) D ++ (t ++ (replC m.g1 D2 ++ W)) := by
        simp
      rw [e]
      exact ScanSelf.fire w1 w2 _ hw1 hw2 hrec
    · by_cases hc : t = []
      · subst hc
        have hPb : P = replC (label ++ w1 ++ '=' :: w2 ++ ['[']) D := by
          simpa using hbe.symm
        have hMK : M = K := by simpa using hMe
        have hrec := ih [] M m (by simpa using hMK.symm) hm hW
        rw [List.nil_append] at hrec
        rw [hPb]
        exact ScanSelf.fire w1 w2 _ hw1 hw2 hrec
      · exfalso
        have hdead := hdeadT w1 w2 hw1 hw2
        have hnone := hdead P t hbe hc K
        rw [← hMe, hm] at hnone
        exact absurd hnone (by simp)

theorem scanSelf_preserved {label D label2 D2 : List Char} {h0 : Char} {lt : List Char}
    (hl : label = h0 :: lt) (hl2ne : label2 ≠ [])
    (hlc : ∀ c ∈ label, pyWs c = false ∧ c ≠ '=' ∧ c ≠ '[')
    (hl2c : ∀ c ∈ label2, pyWs c = false ∧ c ≠ '=' ∧ c ≠ '[')
    (hsub : ∀ b2 k, b2 ≠ [] → label ≠ b2 ++ (label2 ++ k))
    (hh : h0 ≠ ']') (hD : GoodD D)
    (hdead2 : ∀ g1 : List Char, (∃ w1 w2, (∀ x ∈ w1, pyWs x = true) ∧
      (∀ x ∈ w2, pyWs x = true) ∧ g1 = label2 ++ w1 ++ '=' :: w2 ++ ['[']) →
      suffixDead label (replC g1 D2))
    (hdeadT : ∀ w1 w2 : List Char, (∀ x ∈ w1, pyWs x = true) →
      (∀ x ∈ w2, pyWs x = true) →
      suffixDead label2 (replC (label ++ w1 ++ '=' :: w2 ++ ['[']) D)) :
    ∀ (n : Nat) (z : List Char), z.length ≤ n → ScanSelf label D z →
    ScanSelf label D (subAllC label2 D2 z) := by
  have hlws : ∀ c ∈ label, pyWs c = false := fun c hc => (hlc c hc).1
  intro n
  induction n using Nat.strong_induction_on with
  | _ n ih =>
    intro z hz hSS
    rcases hf : findM label2 z with _ | ⟨pre, m⟩
    · rw [subC_findM_none hf]
      exact hSS
    · rw [subC_findM_some hf]
      obtain ⟨mfull, hsplit, hmf, _⟩ := findM_some hf
      obtain ⟨hdec, _, _, _, hcw⟩ := tryMatchC_decomp hmf
      have hzQ : z = (pre ++ (m.g1 ++ m.wsnl ++ m.body ++ '\n' :: m.cw ++ [']'])) ++
          m.rest := by
        rw [hsplit, hdec]
        simp
      have hE : EndsCl (pre ++ (m.g1 ++ m.wsnl ++ m.body ++ '\n' :: m.cw ++ [']'])) := by
        left
        exact ⟨pre ++ m.g1 ++ m.wsnl ++ m.body, m.cw, hcw, by simp⟩
      have hSrest : ScanSelf label D m.rest :=
        scanSelf_extract hl hlws hh hD hSS _ _ hzQ hE
      have hml : m.rest.length < z.length := by
        have h1 := tryMatchC_len hmf
        have h2 : z.length = pre.length + mfull.length := by rw [hsplit]; simp
        omega
      have hSsub : ScanSelf label D (subAllC label2 D2 m.rest) :=
        ih m.rest.length (by omega) m.rest (le_refl _) hSrest
      exact scanSelf_walk hl2ne hlc hl2c hsub hdead2 hdeadT hSS pre mfull m
        hsplit hmf hSsub

/-! ## Idempotence of the full requirements synchronization -/


theorem sync_to_pyproject_eq (content : List Char) (req reqDev : Option (List Char)) :
    sync_to_pyproject content req reqDev =
      (syncStep (parse_requirements req) (parse_requirements reqDev) content,
        decide (syncStep (parse_requirements req) (parse_requirements reqDev) content ≠
          content)) := rfl

theorem label_no_shift : ∀ b2 k, b2 ≠ [] → labelDeps ≠ b2 ++ (labelTest ++ k) := by
  intro b2 k hb2 he
  have h12 : labelDeps.length = 12 := by decide
  have h4 : labelTest.length = 4 := by decide
  have hlen2 : 12 = b2.length + (4 + k.length) := by
    rw [← h12, ← h4, he]
    simp
  have hdrop : List.drop b2.length labelDeps = labelTest ++ k := by
    rw [he, List.drop_left]
  have htake : List.take 4 (List.drop b2.length labelDeps) = labelTest := by
    rw [hdrop, ← h4]
    exact List.take_left _ _
  have hb1 : 1 ≤ b2.length := by
    cases b2 with
    | nil => exact absurd rfl hb2
    | cons a b => simp
  have hdec : ∀ i ∈ List.range 13, ¬(1 ≤ i ∧
      List.take 4 (List.drop i labelDeps) = labelTest) := by decide
  exact hdec b2.length (by simp [List.mem_range]; omega) ⟨hb1, htake⟩

theorem syncStep_idem {P Q : List (List Char)}
    (hPnl : ∀ d ∈ P, '\n' ∉ d) (hQnl : ∀ d ∈ Q, '\n' ∉ d) (x : List Char) :
    syncStep P Q (syncStep P Q x) = syncStep P Q x := by
  have hlcD : ∀ c ∈ labelDeps, pyWs c = false ∧ c ≠ '=' ∧ c ≠ '[' := by decide
  have hlcT : ∀ c ∈ labelTest, pyWs c = false ∧ c ≠ '=' ∧ c ≠ '[' := by decide
  have hlDne : labelDeps ≠ [] := by decide
  have hlTne : labelTest ≠ [] := by decide
  by_cases hP : P = []
  · by_cases hQ : Q = []
    · simp [syncStep, hP, hQ]
    · have hDT : GoodD (format_dependencies Q 4) := goodD_fmt hQ hQnl 4
      simp only [syncStep, if_pos hP, if_neg hQ]
      exact subAllC_idem hlTne hlcT hDT x
  · by_cases hQ : Q = []
    · have hDD : GoodD (format_dependencies P 4) := goodD_fmt hP hPnl 4
      simp only [syncStep, if_neg hP, if_pos hQ]
      exact subAllC_idem hlDne hlcD hDD x
    · have hDD : GoodD (format_dependencies P 4) := goodD_fmt hP hPnl 4
      have hDT : GoodD (format_dependencies Q 4) := goodD_fmt hQ hQnl 4
      have hlD : labelDeps = 'd' :: "ependencies".data := rfl
      have hdead2 : ∀ g1 : List Char, (∃ w1 w2, (∀ x ∈ w1, pyWs x = true) ∧
          (∀ x ∈ w2, pyWs x = true) ∧ g1 = labelTest ++ w1 ++ '=' :: w2 ++ ['[']) →
          suffixDead labelDeps (replC g1 (format_dependencies Q 4)) := by
        intro g1 ⟨w1, w2, hw1, hw2, hg1⟩
        exact blockDead hlD (by decide) (by decide) (by decide) (by decide) (by decide)
          (by decide) (by decide) (by decide) hg1 hw1 hw2 hQnl hQ 4
      have hdeadT : ∀ w1 w2 : List Char, (∀ x ∈ w1, pyWs x = true) →
          (∀ x ∈ w2, pyWs x = true) →
          suffixDead labelTest (replC (labelDeps ++ w1 ++ '=' :: w2 ++ ['['])
            (format_dependencies P 4)) := by
        intro w1 w2 hw1 hw2
        exact blockDead (rfl : labelTest = 't' :: "est".data) (by decide) (by decide)
          (by decide) (by decide) (by decide) (by decide) (by decide) (by decide)
          rfl hw1 hw2 hPnl hP 4
      have hA : ScanSelf labelDeps (format_dependencies P 4)
          (subAllC labelDeps (format_dependencies P 4) x) :=
        scanSelf_subAllC hlDne hlcD x.length x (le_refl _)
      have hB : ScanSelf labelDeps (format_dependencies P 4)
          (subAllC labelTest (format_dependencies Q 4)
            (subAllC labelDeps (format_dependencies P 4) x)) :=
        scanSelf_preserved hlD hlTne hlcD hlcT label_no_shift (by decide) hDD
          hdead2 hdeadT _ _ (le_refl _) hA
      have hC := scanSelf_fix hDD hB
      have hE := subAllC_idem hlTne hlcT hDT
        (subAllC labelDeps (format_dependencies P 4) x)
      simp only [syncStep, if_neg hP, if_neg hQ]
      rw [hC, hE]

/-! ## Faithful templates: the requirements synchronizer -/

theorem parseTemplate_tmplC {D : List Char} (hD : '\\' ∉ D) :
    parseTemplate 3 (tmplC D).length (tmplC D) =
      some (TItem.group 1 :: ('\n' :: (D ++ ['\n', ']'])).map TItem.lit) := by
  have hX : '\\' ∉ ('\n' :: (D ++ ['\n', ']'])) := by
    intro h
    rcases List.mem_cons.mp h with h | h
    · exact absurd h (by decide)
    · rcases List.mem_append.mp h with h | h
      · exact hD h
      · exact absurd h (by decide)
  have hstep : parseTemplate 3 (tmplC D).length (tmplC D) =
      (parseTemplate 3 ('\n' :: (D ++ ['\n', ']'])).length.succ
          ('\n' :: (D ++ ['\n', ']']))).map
        (fun ts => TItem.group 1 :: ts) := rfl
  rw [hstep, parseTemplate_no_bs 3 ('\n' :: (D ++ ['\n', ']'])) hX _ (Nat.le_succ _)]
  rfl

theorem subCGoX_tmpl (label D : List Char) : ∀ (n : Nat) (s : List Char),
    subCGoX label (TItem.group 1 :: ('\n' :: (D ++ ['\n', ']'])).map TItem.lit) n s =
      subCGo label D n s := by
  intro n
  induction n with
  | zero => intro s; rfl
  | succ k ih =>
    intro s
    cases s with
    | nil => rfl
    | cons c cs =>
      rcases hm : tryMatchC label (c :: cs) with _ | m
      · rw [subCGoX_step_none hm, subCGo_step_none hm, ih]
      · rw [subCGoX_step_some hm, subCGo_step_some hm, ih]
        congr 1
        rw [expandT, expandT_lits]
        rfl

theorem subAllCX_literal {D : List Char} (hD : '\\' ∉ D) (label s : List Char) :
    subAllCX label D s = some (subAllC label D s) := by
  rw [subAllCX, parseTemplate_tmplC hD]
  show some (subCGoX label (TItem.group 1 :: ('\n' :: (D ++ ['\n', ']'])).map TItem.lit)
      s.length s) = some (subAllC label D s)
  rw [subCGoX_tmpl]
  rfl

theorem joinLines_no_bs {ls : List (List Char)} (h : ∀ l ∈ ls, '\\' ∉ l) :
    '\\' ∉ joinLines ls := by
  induction ls with
  | nil => simp [joinLines]
  | cons l ls ih =>
    cases ls with
    | nil =>
      show '\\' ∉ joinLines [l]
      rw [show joinLines [l] = l from rfl]
      exact h l (by simp)
    | cons l2 ls2 =>
      rw [joinLines_cons2]
      intro hm
      rcases List.mem_append.mp hm with h1 | h1
      · exact h l (by simp) h1
      · rcases List.mem_cons.mp h1 with h2 | h2
        · exact absurd h2 (by decide)
        · exact ih (fun x hx => h x (List.mem_cons_of_mem l hx)) h2

theorem formatDep_no_bs {d : List Char} (h : '\\' ∉ d) (indent : Nat) :
    '\\' ∉ formatDep indent d := by
  intro hm
  rw [formatDep] at hm
  rcases List.mem_append.mp hm with h1 | h1
  · exact absurd (List.eq_of_mem_replicate h1) (by decide)
  · rcases List.mem_cons.mp h1 with h2 | h2
    · exact absurd h2 (by decide)
    · rcases List.mem_append.mp h2 with h3 | h3
      · exact h h3
      · exact absurd h3 (by decide)

theorem fmt_no_bs {deps : List (List Char)} (h : ∀ d ∈ deps, '\\' ∉ d) (indent : Nat) :
    '\\' ∉ format_dependencies deps indent := by
  rw [format_dependencies]
  by_cases hd : deps = []
  · rw [if_pos hd]
    simp
  · rw [if_neg hd, intercalate_eq_joinLines]
    exact joinLines_no_bs (fun l hl => by
      obtain ⟨d, hd2, rfl⟩ := List.mem_map.mp hl
      exact formatDep_no_bs (h d hd2) indent)

theorem sync_to_pyprojectX_literal {req reqDev : Option (List Char)}
    (h1 : ∀ d ∈ parse_requirements req, '\\' ∉ d)
    (h2 : ∀ d ∈ parse_requirements reqDev, '\\' ∉ d) (x : List Char) :
    sync_to_pyprojectX x req reqDev = some (sync_to_pyproject x req reqDev) := by
  have hPX : (if parse_requirements req = [] then some x
      else subAllCX labelDeps (format_dependencies (parse_requirements req) 4) x) =
      some (if parse_requirements req = [] then x
        else subAllC labelDeps (format_dependencies (parse_requirements req) 4) x) := by
    by_cases hP : parse_requirements req = []
    · rw [if_pos hP, if_pos hP]
    · rw [if_neg hP, if_neg hP, subAllCX_literal (fmt_no_bs h1 4)]
  have hQX : ∀ y : List Char, (if parse_requirements reqDev = [] then some y
      else subAllCX labelTest (format_dependencies (parse_requirements reqDev) 4) y) =
      some (if parse_requirements reqDev = [] then y
        else subAllC labelTest (format_dependencies (parse_requirements reqDev) 4) y) := by
    intro y
    by_cases hQ : parse_requirements reqDev = []
    · rw [if_pos hQ, if_pos hQ]
    · rw [if_neg hQ, if_neg hQ, subAllCX_literal (fmt_no_bs h2 4)]
  rw [sync_to_pyprojectX, hPX]
  dsimp only
  rw [hQX]
  dsimp only
  rfl

/-- C3 counterexample: the claim fails already for a single requirements
file holding the one entry backslash-g-bracket-0.  re.sub parses the
replacement template (including the interpolated entry), so that entry
becomes a whole-match group reference; the first run embeds the matched
array into itself, and the second run on that output matches again up to an
earlier inner closer, produces different content and reports changed --
refuting byte-identical second output and the no-change second report. -/
theorem c3_counterexample_template_reference_not_idempotent :
    sync_to_pyprojectX "dependencies = [\n    \"a\",\n]".data (some "\\g<0>".data) none =
      some ("dependencies = [\n    \"dependencies = [\n    \"a\",\n]\",\n]".data, true) ∧
    sync_to_pyprojectX "dependencies = [\n    \"dependencies = [\n    \"a\",\n]\",\n]".data
        (some "\\g<0>".data) none =
      some (("dependencies = [\n    \"dependencies = [\n    \"dependencies = [\n" ++
        "    \"a\",\n]\",\n]\",\n]").data, true) ∧
    ("dependencies = [\n    \"dependencies = [\n    \"dependencies = [\n" ++
        "    \"a\",\n]\",\n]\",\n]").data ≠
      "dependencies = [\n    \"dependencies = [\n    \"a\",\n]\",\n]".data :=
  ⟨by decide, by decide, by decide⟩

/-- C3 (amended): for requirement files whose parsed entries are
backslash-free (so the replacement text is inserted verbatim), the
requirements synchronization is idempotent: the first run succeeds, and a
second run on its output computes byte-identical content and reports no
change (returns false), so the file is not rewritten. -/
theorem c3_amended_idempotent_without_backslashes (content : List Char)
    (req reqDev : Option (List Char))
    (h1 : ∀ d ∈ parse_requirements req, '\\' ∉ d)
    (h2 : ∀ d ∈ parse_requirements reqDev, '\\' ∉ d) :
    ∃ out : List Char,
      sync_to_pyprojectX content req reqDev = some (out, decide (out ≠ content)) ∧
      sync_to_pyprojectX out req reqDev = some (out, false) := by
  refine ⟨(sync_to_pyproject content req reqDev).1, ?_, ?_⟩
  · rw [sync_to_pyprojectX_literal h1 h2 content]
    rfl
  · rw [sync_to_pyprojectX_literal h1 h2]
    have hidem : sync_to_pyproject (sync_to_pyproject content req reqDev).1 req reqDev =
        ((sync_to_pyproject content req reqDev).1, false) := by
      rw [sync_to_pyproject_eq content req reqDev]
      dsimp only
      rw [sync_to_pyproject_eq]
      rw [syncStep_idem (parse_requirements_nl_free req) (parse_requirements_nl_free reqDev)
        content]
      simp
    rw [hidem]

/-- Witness for the amended C3 on a concrete document and requirements file. -/
theorem c3_amended_idempotent_without_backslashes_witness :
    ∃ out : List Char,
      sync_to_pyprojectX "dependencies = [\n    \"old==1\",\n]\n".data
          (some "new==2\n".data) none =
        some (out, decide (out ≠ "dependencies = [\n    \"old==1\",\n]\n".data)) ∧
      sync_to_pyprojectX out (some "new==2\n".data) none = some (out, false) :=
  c3_amended_idempotent_without_backslashes "dependencies = [\n    \"old==1\",\n]\n".data
    (some "new==2\n".data) none (by decide) (by decide)

end LangoSync
